import Mathlib

/-!
Verification of the template lexer, value resolver, command orchestrator and
output emitter of the drovp/run processor, as a shallow embedding.

The repository ships two processor variants:
* the `parseTemplate` / `detokenize` variant (hand-written lexer, resolver and
  orchestrator) — embedded here in full, with the external regex engine,
  platform-path provider and process-exec collaborators abstracted as oracles;
* the `expandTemplateLiteral` variant (template expansion is an external
  collaborator) — its orchestrator, which creates the shared temporary
  directory lazily, is embedded as `run1` with the expander as an oracle.
-/

namespace DrovpRun

/-! ## JavaScript string primitives -/

/-- Characters matched by the JavaScript regex class `\\s`:
tab, line feed, vertical tab, form feed, carriage return, space, no-break
space, ogham space mark, the U+2000 to U+200A spaces, the line and paragraph
separators, narrow no-break space, medium mathematical space, ideographic
space, and the byte-order mark. -/
def jsWS (c : Char) : Bool :=
  c.toNat = 0x9 ∨ c.toNat = 0xA ∨ c.toNat = 0xB ∨ c.toNat = 0xC ∨
  c.toNat = 0xD ∨ c.toNat = 0x20 ∨ c.toNat = 0xA0 ∨ c.toNat = 0x1680 ∨
  (0x2000 ≤ c.toNat ∧ c.toNat ≤ 0x200A) ∨ c.toNat = 0x2028 ∨
  c.toNat = 0x2029 ∨ c.toNat = 0x202F ∨ c.toNat = 0x205F ∨
  c.toNat = 0x3000 ∨ c.toNat = 0xFEFF

/-- JavaScript `String.prototype.trim`. -/
def jsTrim (s : String) : String :=
  String.mk (((s.toList.dropWhile jsWS).reverse.dropWhile jsWS).reverse)

/-- Characters matched by the JavaScript regex class `\\w`:
ASCII letters, ASCII digits and the underscore. -/
def jsWordChar (c : Char) : Bool :=
  c.isAlphanum ∨ c = '_'

/-- Characters matched by the JavaScript regex `.` without the `s` flag:
anything but a line terminator (LF, CR, line separator, paragraph separator). -/
def jsDotChar (c : Char) : Bool :=
  c.toNat ≠ 0xA ∧ c.toNat ≠ 0xD ∧ c.toNat ≠ 0x2028 ∧ c.toNat ≠ 0x2029

/-- Leftmost match of the regex `\s*(\^|\\)?\n\s*` at the head of `cs`:
returns the remainder after the match, if a match starts at the head.
Backtracking order of the JavaScript engine: the greedy leading `\s*` first
consumes the maximal whitespace run; the optional marker and the `\n` are then
tried at its end, and on failure `\s*` backtracks onto a `\n` inside the run. -/
def matchAtHead (cs : List Char) : Option (List Char) :=
  let w := cs.takeWhile jsWS
  let rest := cs.dropWhile jsWS
  match rest with
  | m :: '\n' :: r2 =>
    if m = '^' ∨ m = '\\' then some (r2.dropWhile jsWS)
    else if '\n' ∈ w then some rest else none
  | _ => if '\n' ∈ w then some rest else none

/-- One left-to-right pass of `replaceAll(/\s*(\^|\\)?\n\s*/g, ' ')` over a
character list, fuelled (each match consumes at least one character, so fuel
equal to the list length suffices). -/
def collapseGo : Nat → List Char → List Char
  | _, [] => []
  | 0, cs => cs
  | fuel + 1, c :: cs =>
    match matchAtHead (c :: cs) with
    | some rest => ' ' :: collapseGo fuel rest
    | none => c :: collapseGo fuel cs

/-- JavaScript `s.replaceAll(/\s*(\^|\\)?\n\s*/g, ' ')`: runs of whitespace
spanning a line break, optionally holding one continuation marker before the
first break, collapse to a single space. -/
def collapseWs (s : String) : String :=
  String.mk (collapseGo s.toList.length s.toList)

/-! ## Lexer (`parseTemplate`) -/

/-- Source position recorded on a token (diagnostics only). -/
structure TokenMeta where
  index : Nat
  line : Nat
  column : Nat
deriving DecidableEq, Repr

/-- A lexer token: literal text, or a value placeholder with a name, an
optional single property and an ordered argument list. -/
inductive Token where
  | string (meta : TokenMeta) (value : String)
  | value (meta : TokenMeta) (name : String) (prop : Option String) (args : List String)
deriving DecidableEq, Repr

/-- Delimiter configuration of `parseTemplate`. -/
structure ParseCfg where
  valueStart : Char
  valueEnd : Char
  propStart : Char
  propEnd : Char
  argSeparator : Char
  escapeChar : Char
deriving DecidableEq, Repr

/-- The default delimiters of `parseTemplate`. -/
def defaultCfg : ParseCfg :=
  { valueStart := '<', valueEnd := '>', propStart := '[', propEnd := ']',
    argSeparator := ':', escapeChar := '\\' }

/-- The token currently being built (the mutable `currentToken` of the
source, kept apart from the finished tokens until it closes). -/
inductive Building where
  | none
  | string (meta : TokenMeta) (value : String)
  | value (meta : TokenMeta) (name : String) (prop : Option String) (args : List String)
deriving DecidableEq, Repr

/-- Flush the open token (the source pushes tokens at creation; here the open
token joins the finished list when it closes or when input ends). -/
def Building.flush : Building → List Token
  | .none => []
  | .string m v => [Token.string m v]
  | .value m n p a => [Token.value m n p a]

/-- Append a character to the last argument slot (`args[args.length - 1] += char`). -/
def appendToLast (args : List String) (c : Char) : List String :=
  match args with
  | [] => []
  | [a] => [a.push c]
  | a :: rest => a :: appendToLast rest c

/-- JavaScript `template.slice(a, b)` over a character list. -/
def sliceStr (tpl : List Char) (a b : Nat) : String :=
  String.mk ((tpl.drop a).take (b - a))

/-- Error for an unescaped value-start inside an open value token. -/
def valueStartErr (tpl : List Char) (i tokIdx : Nat) : String :=
  "char[" ++ toString i ++ "] (" ++ sliceStr tpl i (i + 5) ++
  "…) starts a value, while the one at char[" ++ toString tokIdx ++ "] (" ++
  sliceStr tpl tokIdx (tokIdx + 5) ++ "…) hasn\u0027t been terminated."

/-- Error for input ending inside an open value token. -/
def endsBeforeErr (name : String) (line column : Nat) : String :=
  "template ends before value token \"" ++ name ++ "\" at " ++
  toString line ++ ":" ++ toString column ++ " is closed"

/-- Error for an empty property at an unescaped property-end. -/
def emptyPropErr (tpl : List Char) (i tokIdx : Nat) : String :=
  "char[" ++ toString i ++ "] token \"" ++ sliceStr tpl tokIdx i ++
  "\x7d\" property is empty"

/-- Error for an invalid character after a closed property. -/
def invalidCharErr (tpl : List Char) (i : Nat) (next : Char) (tokIdx : Nat) : String :=
  "char[" ++ toString (i + 1) ++ "] invalid character \"" ++
  String.singleton next ++ "\" after value property (" ++
  sliceStr tpl tokIdx (i + 1) ++ ")"

/-- The scanning loop of `parseTemplate`: one pass over the remaining
characters, tracking index, line, column, the previous character (for the
`escaped` test) and the open token. -/
def parseGo (cfg : ParseCfg) (tpl : List Char) :
    List Char → Nat → Nat → Nat → Option Char → Building → List Token →
    Except String (List Token)
  | [], _, _, _, _, cur, acc => .ok (acc ++ cur.flush)
  | c :: rs, i, line, column, prev, cur, acc =>
    let escaped := prev = some cfg.escapeChar
    let line2 := if c = '\n' then line + 1 else line
    let col2 := if c = '\n' then 0 else column + 1
    if c = cfg.escapeChar then
      parseGo cfg tpl rs (i + 1) line2 col2 (some c) cur acc
    else if c = cfg.valueStart ∧ ¬escaped then
      match cur with
      | .value m _ _ _ => .error (valueStartErr tpl i m.index)
      | .string m v =>
        parseGo cfg tpl rs (i + 1) line2 col2 (some c)
          (.value ⟨i, line2, col2⟩ "" Option.none []) (acc ++ [Token.string m v])
      | .none =>
        parseGo cfg tpl rs (i + 1) line2 col2 (some c)
          (.value ⟨i, line2, col2⟩ "" Option.none []) acc
    else
      match cur with
      | .none =>
        parseGo cfg tpl rs (i + 1) line2 col2 (some c)
          (.string ⟨i, line2, col2⟩ (String.singleton c)) acc
      | .string m v =>
        parseGo cfg tpl rs (i + 1) line2 col2 (some c) (.string m (v.push c)) acc
      | .value m name prop args =>
        if c = cfg.valueEnd ∧ ¬escaped then
          parseGo cfg tpl rs (i + 1) line2 col2 (some c) .none
            (acc ++ [Token.value m name prop args])
        else
          match rs with
          | [] => .error (endsBeforeErr name m.line m.column)
          | next :: _ =>
            if c = cfg.argSeparator ∧ ¬escaped then
              parseGo cfg tpl rs (i + 1) line2 col2 (some c)
                (.value m name prop (args ++ [""])) acc
            else if c = cfg.propStart ∧ ¬escaped then
              parseGo cfg tpl rs (i + 1) line2 col2 (some c)
                (.value m name (some "") args) acc
            else if c = cfg.propEnd ∧ ¬escaped then
              if prop = Option.none ∨ prop = some "" then
                .error (emptyPropErr tpl i m.index)
              else if next ≠ cfg.argSeparator ∧ next ≠ cfg.valueEnd then
                .error (invalidCharErr tpl i next m.index)
              else
                parseGo cfg tpl rs (i + 1) line2 col2 (some c) cur acc
            else
              match args with
              | _ :: _ =>
                parseGo cfg tpl rs (i + 1) line2 col2 (some c)
                  (.value m name prop (appendToLast args c)) acc
              | [] =>
                match prop with
                | some p =>
                  parseGo cfg tpl rs (i + 1) line2 col2 (some c)
                    (.value m name (some (p.push c)) args) acc
                | Option.none =>
                  parseGo cfg tpl rs (i + 1) line2 col2 (some c)
                    (.value m (name.push c) prop args) acc

/-- The post-pass of `parseTemplate`: collapse newline-spanning whitespace
runs inside every string token. -/
def postPass : Token → Token
  | .string m v => .string m (collapseWs v)
  | t => t

/-- The lexer entry point: template string to ordered token list, or a parse error. -/
def parseTemplate (cfg : ParseCfg) (template : String) : Except String (List Token) :=
  (parseGo cfg template.toList template.toList 0 0 0 Option.none .none []).map
    (List.map postPass)

/-! ## Value resolver (`detokenize`) -/

/-- Decimal value of a digit string. -/
def digitsToNat (l : List Char) : Nat :=
  l.foldl (fun acc c => acc * 10 + (c.toNat - 48)) 0

/-- A canonical JavaScript array-index string: `stdouts[p]` with a string `p`
hits element `n` exactly when `p` is the canonical decimal numeral for `n`
(digits only, no leading zero except `"0"` itself). -/
def canonicalIndex (p : String) : Option Nat :=
  let l := p.toList
  if l ≠ [] ∧ l.all Char.isDigit ∧ (l.head? = some '0' → l = ['0']) then
    some (digitsToNat l)
  else Option.none

/-- Sparse-array read at a possibly negative index (`stdouts[i]` with a
number `i`; out-of-range and hole reads give `undefined`, modelled `none`). -/
def sparseGet (l : List (Option String)) (i : Int) : Option String :=
  if i < 0 then Option.none else l.getD i.toNat Option.none

/-- Sparse-array write `stdouts[i] = v`: pads with holes up to `i` if needed
(the array length becomes `max length (i+1)`). -/
def sparseSet (l : List (Option String)) (i : Nat) (v : String) : List (Option String) :=
  if i < l.length then l.set i (some v)
  else l ++ List.replicate (i - l.length) Option.none ++ [some v]

/-- The stdout selected by a `stdout` token: by the property if present
(used as a JavaScript array index), else `stdouts.length - 1`. -/
def selectStdout (stdouts : List (Option String)) (prop : Option String) : Option String :=
  match prop with
  | some p =>
    match canonicalIndex p with
    | some n => stdouts.getD n Option.none
    | Option.none => Option.none
  | Option.none => sparseGet stdouts ((stdouts.length : Int) - 1)

/-- A regex match as observed by `detokenize`: the whole match and the
optional named capture group `result`. -/
structure RegexMatch where
  whole : String
  resultGroup : Option String
deriving DecidableEq, Repr

/-- Oracles for the external collaborators `detokenize` consumes: the
JavaScript regex engine and the platform-path provider. -/
structure DetokEnv where
  regexFind : String → String → String → Option RegexMatch
  isPlatformPathIdentifier : String → Bool
  getPlatformPath : String → String

/-- Scan the reverse of the body of a `/expression/flags` argument, looking
for the rightmost `/` whose suffix is all word characters and whose prefix is
matchable by the greedy dot-all-but-newline `.*` — the split found by the
anchored regex `^\/(?<expression>.*)\/(?<flags>\w*)$`. `fAcc` holds, in
original order, the characters already passed (those right of the cursor). -/
def splitRev : List Char → List Char → Option (List Char × List Char)
  | _, [] => Option.none
  | fAcc, c :: cs =>
    if c = '/' ∧ fAcc.all jsWordChar ∧ cs.all jsDotChar then some (cs.reverse, fAcc)
    else splitRev (c :: fAcc) cs

/-- Interpret a `stdout` token regex argument: either `/pattern/flags`
(yielding those flags, possibly empty) or a bare pattern with the default
flags `is` (dot-matches-newline, case-insensitive). -/
def parseRegexArg (a : String) : String × String :=
  if a.toList.head? = some '/' then
    match splitRev [] a.toList.tail.reverse with
    | some (e, f) => (String.mk e, String.mk f)
    | Option.none => (a, "is")
  else (a, "is")

/-- Token position string used in resolver diagnostics. -/
def positionStr (m : TokenMeta) : String :=
  toString m.line ++ ":" ++ toString m.column

/-- Rendering of a `stdout` token for diagnostics. -/
def stdoutTokenStr (args : List String) : String :=
  if args.length > 0 then "<stdout:" ++ String.intercalate ":" args ++ ">"
  else "<stdout>"

/-- The index shown in stdout diagnostics: the property string when present,
else the number `stdouts.length - 1`. -/
def stdoutIndexStr (stdouts : List (Option String)) (prop : Option String) : String :=
  match prop with
  | some p => p
  | Option.none => toString ((stdouts.length : Int) - 1)

/-- Error for a `stdout` token with more than one argument. -/
def tooManyArgsErr (ns pos tokenStr : String) : String :=
  ns ++ ": token at " ++ pos ++ " has too many arguments:\n\n" ++ tokenStr ++
  "\n\nMaybe unescaped colon?"

/-- Error for a `stdout` token whose selected index holds no usable value. -/
def nonExistentStdoutErr (ns pos tokenStr idx : String) : String :=
  ns ++ ": token at " ++ pos ++ ":\n\n" ++ tokenStr ++
  "\n\nreferences non-existent stdout index \"" ++ idx ++ "\"."

/-- Error for a `stdout` token regex that matched nothing; carries the first
1000 characters of the searched text. -/
def noMatchErr (ns pos tokenStr idx excerpt : String) : String :=
  ns ++ ": stdout token expression at " ++ pos ++ ":\n\n" ++ tokenStr ++
  "\n\ndidn\u0027t match any result. stdout[" ++ idx ++
  "] (first 1000 chars):\n\n" ++ excerpt

/-- Error for a value token that resolved to nothing. -/
def emptyValueErr (ns name pos : String) : String :=
  ns ++ ": value of token \"<" ++ name ++ ">\" at " ++ pos ++ " is empty."

/-- The resolution loop of `detokenize`: token list plus context to expanded
string, failing atomically. Resolution precedence for a value token: reserved
name `stdout`, then a non-empty static value, then a platform path, else an
error. -/
def detokGo (env : DetokEnv) (ns : String) (staticValues : String → Option String)
    (stdouts : List (Option String)) : List Token → String → Except String String
  | [], result => .ok (jsTrim result)
  | Token.string _ v :: rest, result =>
    detokGo env ns staticValues stdouts rest (result ++ v)
  | Token.value m name prop args :: rest, result =>
    let pos := positionStr m
    if name = "stdout" then
      let tokenStr := stdoutTokenStr args
      let idxStr := stdoutIndexStr stdouts prop
      let regExpStr := (args.head?).getD ""
      if args.length > 1 then .error (tooManyArgsErr ns pos tokenStr)
      else
        match selectStdout stdouts prop with
        | Option.none => .error (nonExistentStdoutErr ns pos tokenStr idxStr)
        | some s =>
          if s = "" then .error (nonExistentStdoutErr ns pos tokenStr idxStr)
          else if regExpStr ≠ "" then
            let pf := parseRegexArg regExpStr
            match env.regexFind pf.1 pf.2 s with
            | some mt =>
              detokGo env ns staticValues stdouts rest
                (result ++ (mt.resultGroup.getD mt.whole))
            | Option.none => .error (noMatchErr ns pos tokenStr idxStr (s.take 1000))
          else detokGo env ns staticValues stdouts rest (result ++ s)
    else
      let sv := (staticValues name).getD ""
      if sv ≠ "" then detokGo env ns staticValues stdouts rest (result ++ sv)
      else if env.isPlatformPathIdentifier name ∧ env.getPlatformPath name ≠ "" then
        detokGo env ns staticValues stdouts rest (result ++ env.getPlatformPath name)
      else .error (emptyValueErr ns name pos)

/-- The resolver entry point. -/
def detokenize (env : DetokEnv) (ns : String) (tokens : List Token)
    (staticValues : String → Option String) (stdouts : List (Option String)) :
    Except String String :=
  detokGo env ns staticValues stdouts tokens ""

/-- Parse a template and resolve it, as every caller does
(`detokenize(ns, parseTemplate(tpl), staticValues, stdouts)`). -/
def detokenizeTpl (env : DetokEnv) (cfg : ParseCfg) (ns : String) (tpl : String)
    (staticValues : String → Option String) (stdouts : List (Option String)) :
    Except String String :=
  (parseTemplate cfg tpl).bind fun toks => detokenize env ns toks staticValues stdouts

/-! ## Command orchestrator and output emitter (`parseTemplate` variant) -/

/-- A configured command: template, cwd and the ignore-errors flag. -/
structure CommandSpec where
  command : String
  cwd : String
  ignoreErrors : Bool
deriving DecidableEq, Repr

/-- Declared output types. -/
inductive OutputType where
  | file
  | directory
  | url
  | string
deriving DecidableEq, Repr

/-- An output template with its declared type. -/
structure OutputSpec where
  type : OutputType
  template : String
deriving DecidableEq, Repr

/-- Output emission modes. -/
inductive OutputMode where
  | all
  | any
  | first
deriving DecidableEq, Repr

/-- The options bundle driving one operation. -/
structure Options where
  parallelMode : Bool
  commands : List CommandSpec
  outputs : List OutputSpec
  outputMode : OutputMode
deriving DecidableEq, Repr

/-- What the process-exec collaborator eventually reports for one command:
captured stdout and stderr on completion, or a failure message. -/
inductive ExecOutcome where
  | success (stdout stderr : String)
  | failure (message : String)
deriving DecidableEq, Repr

/-- Oracles for one operation of the `parseTemplate` variant: the resolver
collaborators plus the per-command process outcome and the temporary
directory path. -/
structure RunEnv extends DetokEnv where
  exec : Nat → ExecOutcome
  tmpDir : String

/-- Observable actions of one operation, in order: progress stages, command
launches, error reports, typed result emissions and the temporary-directory
lifecycle. -/
inductive Ev where
  | stage (s : String)
  | launched (i : Nat) (command : String) (cwd : String)
  | errorOut (message : String)
  | emit (i : Nat) (t : OutputType) (payload : String)
  | tmpDirCreated
  | tmpDirDeleted
deriving DecidableEq, Repr

/-- Namespace label for command diagnostics. -/
def cmdNs (i : Nat) : String :=
  "command[" ++ toString i ++ "]"

/-- Fatal message for a command template whose resolution failed. -/
def cmdTemplateErrMsg (i : Nat) (e : String) : String :=
  cmdNs i ++ " template error: " ++ e

/-- Fatal message for a command template that resolved to the empty string. -/
def emptyCommandMsg (i : Nat) : String :=
  cmdNs i ++ ": template produced an empty command"

/-- Fatal message for an output template whose resolution failed. -/
def resultTemplateErrMsg (i : Nat) (e : String) : String :=
  "result[" ++ toString i ++ "] template error: " ++ e

/-- Error reported for an output template that resolved to the empty string. -/
def emptyResultMsg (i : Nat) : String :=
  "result[" ++ toString i ++ "] template produced an empty string."

/-- Progress-stage string for command `i` of `total`. -/
def stageMsg (i total : Nat) : String :=
  toString (i + 1) ++ "/" ++ toString total

/-- The working directory a command runs in: its trimmed cwd field when
non-blank, else the shared temporary directory. -/
def cwdUsedFor (tmpDir : String) (c : CommandSpec) : String :=
  let t := jsTrim c.cwd
  if t.length > 0 then t else tmpDir

/-- Sequential execution: resolve, check non-empty, launch, await; on a
completed command with non-empty stderr and ignore-errors off, or on a failed
command with ignore-errors off, stop issuing further commands. A resolution
failure or an empty resolved command aborts fatally (third component). -/
def seqLoop (env : RunEnv) (sv : String → Option String) (total : Nat) :
    List CommandSpec → Nat → List (Option String) → List Ev →
    List (Option String) × List Ev × Option String
  | [], _, stdouts, evs => (stdouts, evs, Option.none)
  | c :: rest, i, stdouts, evs =>
    let evs := evs ++ [Ev.stage (stageMsg i total)]
    match detokenizeTpl env.toDetokEnv defaultCfg (cmdNs i) c.command sv stdouts with
    | .error e => (stdouts, evs, some (cmdTemplateErrMsg i e))
    | .ok filled =>
      if filled = "" then (stdouts, evs, some (emptyCommandMsg i))
      else
        let evs := evs ++ [Ev.launched i filled (cwdUsedFor env.tmpDir c)]
        match env.exec i with
        | .success out err =>
          let stdouts := sparseSet stdouts i out
          if err ≠ "" ∧ ¬c.ignoreErrors then (stdouts, evs, Option.none)
          else seqLoop env sv total rest (i + 1) stdouts evs
        | .failure e =>
          let evs := evs ++ [Ev.errorOut e]
          if ¬c.ignoreErrors then (stdouts, evs, Option.none)
          else seqLoop env sv total rest (i + 1) stdouts evs

/-- Parallel dispatch: resolve every command against the context available at
dispatch time (`stdouts` is threaded unchanged — no sibling has settled yet)
and launch them all; returns the launched indices. A resolution failure or an
empty resolved command aborts fatally, launching nothing further. -/
def parDispatch (env : RunEnv) (sv : String → Option String)
    (stdouts : List (Option String)) :
    List CommandSpec → Nat → List Ev → List Nat × List Ev × Option String
  | [], _, evs => ([], evs, Option.none)
  | c :: rest, i, evs =>
    match detokenizeTpl env.toDetokEnv defaultCfg (cmdNs i) c.command sv stdouts with
    | .error e => ([], evs, some (cmdTemplateErrMsg i e))
    | .ok filled =>
      if filled = "" then ([], evs, some (emptyCommandMsg i))
      else
        let evs := evs ++ [Ev.launched i filled (cwdUsedFor env.tmpDir c)]
        let r := parDispatch env sv stdouts rest (i + 1) evs
        (i :: r.1, r.2.1, r.2.2)

/-- Join barrier of parallel mode: collect each launched command's settled
outcome; a success stores its stdout at the command index, a failure is
reported and never blocks a sibling. -/
def parSettle (env : RunEnv) :
    List Nat → List (Option String) → List Ev → List (Option String) × List Ev
  | [], stdouts, evs => (stdouts, evs)
  | i :: rest, stdouts, evs =>
    match env.exec i with
    | .success out _ => parSettle env rest (sparseSet stdouts i out) evs
    | .failure e => parSettle env rest stdouts (evs ++ [Ev.errorOut e])

/-- The output-emission loop: resolve each output template against the final
context; a non-empty result is emitted as the declared type (mode `first`
stops after the first), an empty result is reported as an error in mode
`all` and skipped otherwise; a resolution failure is fatal. -/
def emitLoop (env : RunEnv) (sv : String → Option String)
    (stdouts : List (Option String)) (mode : OutputMode) :
    List OutputSpec → Nat → List Ev → List Ev × Option String
  | [], _, evs => (evs, Option.none)
  | o :: rest, i, evs =>
    match detokenizeTpl env.toDetokEnv defaultCfg ("result[" ++ toString i ++ "]")
        o.template sv stdouts with
    | .error e => (evs, some (resultTemplateErrMsg i e))
    | .ok filled =>
      if filled ≠ "" then
        let evs := evs ++ [Ev.emit i o.type filled]
        if mode = OutputMode.first then (evs, Option.none)
        else emitLoop env sv stdouts mode rest (i + 1) evs
      else
        let evs :=
          if mode = OutputMode.all then evs ++ [Ev.errorOut (emptyResultMsg i)]
          else evs
        emitLoop env sv stdouts mode rest (i + 1) evs

/-- Result of one operation: the event trace and, when the processor threw,
the fatal error (a throw skips the temporary-directory cleanup and the
output phase). -/
structure RunOut where
  events : List Ev
  fatal : Option String
deriving DecidableEq, Repr

/-- One whole operation of the `parseTemplate` variant: create the temporary
directory, run the commands sequentially or in parallel, delete the
directory once every command has settled, then emit outputs. -/
def processorRun (env : RunEnv) (sv : String → Option String) (opts : Options) :
    RunOut :=
  let evs0 : List Ev := [Ev.tmpDirCreated]
  if opts.parallelMode then
    match parDispatch env sv [] opts.commands 0 evs0 with
    | (_, evs, some f) => ⟨evs, some f⟩
    | (launchedIdx, evs, Option.none) =>
      let r := parSettle env launchedIdx [] evs
      let evs := r.2 ++ [Ev.tmpDirDeleted]
      let e := emitLoop env sv r.1 opts.outputMode opts.outputs 0 evs
      ⟨e.1, e.2⟩
  else
    match seqLoop env sv opts.commands.length opts.commands 0 [] evs0 with
    | (_, evs, some f) => ⟨evs, some f⟩
    | (stdouts, evs, Option.none) =>
      let evs := evs ++ [Ev.tmpDirDeleted]
      let e := emitLoop env sv stdouts opts.outputMode opts.outputs 0 evs
      ⟨e.1, e.2⟩

/-! ## Command orchestrator (`expandTemplateLiteral` variant)

In this variant the template expander is an external collaborator (an
oracle keyed by command index), and the shared temporary directory is
created lazily: only when some command has a blank (after trim) cwd field. -/

/-- What the expander and filesystem oracles report for command `i` of the
`expandTemplateLiteral` variant. -/
structure Env1 where
  expandCwd : Nat → Except String String
  ensureDir : Nat → Option String
  expandTemplate : Nat → Except String String
  exec1 : Nat → ExecOutcome

/-- Per-command preparation of the `expandTemplateLiteral` variant: expand
the cwd template and ensure the directory exists (blank cwd selects the
shared temporary directory), expand and trim the command template, and
reject an empty resolved command. An error is reported and aborts the
operation without cleanup. -/
def prepare1 (env : Env1) (tmpDir : String) (i : Nat) (c : CommandSpec) :
    Except String (String × String) :=
  let cwdT := jsTrim c.cwd
  let cwdStep : Except String String :=
    if cwdT.length > 0 then
      match env.expandCwd i with
      | .error e => .error (cmdNs i ++ " cwd template error: " ++ e)
      | .ok cwdPath =>
        match env.ensureDir i with
        | some e =>
          .error (cmdNs i ++ ": Error creating cwd \"" ++ cwdT ++ "\"" ++
            (if cwdT ≠ cwdPath then ", expanded into \"" ++ cwdPath ++ "\":" else "") ++
            ": " ++ e)
        | Option.none => .ok cwdPath
    else .ok tmpDir
  match cwdStep with
  | .error e => .error e
  | .ok cwdPath =>
    match env.expandTemplate i with
    | .error e => .error e
    | .ok raw =>
      let filled := jsTrim raw
      if filled = "" then .error (emptyCommandMsg i)
      else .ok (filled, cwdPath)

/-- Failure report of the `expandTemplateLiteral` variant for a rejected
command execution. -/
def failedMsg1 (i : Nat) (code : String) : String :=
  "COMMAND[" ++ toString i ++ "] failed with exit code " ++ code ++ "."

/-- Sequential execution of the `expandTemplateLiteral` variant: a
preparation error reports and aborts (second component `true`, skipping
cleanup); a failed execution reports and, with ignore-errors off, breaks out
of the loop (cleanup still runs); a completed command never breaks. -/
def run1Seq (env : Env1) (tmpDir : String) (total : Nat) :
    List CommandSpec → Nat → List Ev → List Ev × Bool
  | [], _, evs => (evs, false)
  | c :: rest, i, evs =>
    let evs := evs ++ [Ev.stage (stageMsg i total)]
    match prepare1 env tmpDir i c with
    | .error m => (evs ++ [Ev.errorOut m], true)
    | .ok fc =>
      let evs := evs ++ [Ev.launched i fc.1 fc.2]
      match env.exec1 i with
      | .success _ _ => run1Seq env tmpDir total rest (i + 1) evs
      | .failure code =>
        let evs := evs ++ [Ev.errorOut (failedMsg1 i code)]
        if ¬c.ignoreErrors then (evs, false)
        else run1Seq env tmpDir total rest (i + 1) evs

/-- Parallel dispatch of the `expandTemplateLiteral` variant. -/
def run1Par (env : Env1) (tmpDir : String) :
    List CommandSpec → Nat → List Ev → List Nat × List Ev × Bool
  | [], _, evs => ([], evs, false)
  | c :: rest, i, evs =>
    match prepare1 env tmpDir i c with
    | .error m => ([], evs ++ [Ev.errorOut m], true)
    | .ok fc =>
      let evs := evs ++ [Ev.launched i fc.1 fc.2]
      let r := run1Par env tmpDir rest (i + 1) evs
      (i :: r.1, r.2.1, r.2.2)

/-- Join barrier of the `expandTemplateLiteral` variant in parallel mode. -/
def run1Settle (env : Env1) : List Nat → List Ev → List Ev
  | [], evs => evs
  | i :: rest, evs =>
    match env.exec1 i with
    | .success _ _ => run1Settle env rest evs
    | .failure code => run1Settle env rest (evs ++ [Ev.errorOut (failedMsg1 i code)])

/-- One operation of the `expandTemplateLiteral` variant up to cleanup: the
shared temporary directory is created only when some command has a blank
(after trim) cwd field, and is deleted after the commands settle — unless a
preparation error aborted the operation first (second component `true`). -/
def run1 (env : Env1) (cmds : List CommandSpec) (parallelMode : Bool) (tmpDir : String) :
    List Ev × Bool :=
  let tmpNeeded := cmds.any fun c => (jsTrim c.cwd).length = 0
  let evs0 : List Ev := if tmpNeeded then [Ev.tmpDirCreated] else []
  let r :=
    if parallelMode then
      let d := run1Par env tmpDir cmds 0 evs0
      (run1Settle env d.1 d.2.1, d.2.2)
    else run1Seq env tmpDir cmds.length cmds 0 evs0
  if r.2 then (r.1, true)
  else (r.1 ++ (if tmpNeeded then [Ev.tmpDirDeleted] else []), false)

/-! ## Derived notions and concrete fixtures used by the verification -/

/-- The text content a token contributes, reading a value token back in its
source syntax (the most faithful reconstruction the token data allows). -/
def tokenContents : Token → String
  | .string _ v => v
  | .value _ name prop args =>
    "<" ++ name ++
    (match prop with | some p => "[" ++ p ++ "]" | Option.none => "") ++
    String.join (args.map (fun a => ":" ++ a)) ++ ">"

/-- Concatenation of the contents of a token list, in order. -/
def tokensContents (toks : List Token) : String :=
  String.join (toks.map tokenContents)

/-- No occurrence of the character `e` in the string. -/
def strClean (e : Char) (s : String) : Bool :=
  s.toList.all fun c => c != e

/-- No occurrence of the character `e` anywhere in a token's contents:
string-token value, or value-token name, property and arguments. -/
def tokenClean (e : Char) : Token → Bool
  | .string _ v => strClean e v
  | .value _ name prop args =>
    strClean e name &&
    (match prop with | some p => strClean e p | Option.none => true) &&
    args.all (strClean e)

/-- No occurrence of the character `e` in the open token being built. -/
def buildingClean (e : Char) : Building → Bool
  | .none => true
  | .string _ v => strClean e v
  | .value _ name prop args =>
    strClean e name &&
    (match prop with | some p => strClean e p | Option.none => true) &&
    args.all (strClean e)

/-- The stdout context visible to command `k` in a sequential run that
reached it: the captures of the settled commands `0..k-1`, each stored at
its own index (failed commands store nothing). -/
def seqCtx (env : RunEnv) : Nat → List (Option String)
  | 0 => []
  | k + 1 =>
    match env.exec k with
    | .success out _ => sparseSet (seqCtx env k) k out
    | .failure _ => seqCtx env k

/-- Command `j` lets a sequential run continue past it: it resolves (against
the context it is dispatched with) to a non-empty command, and it settles
without tripping the stop rule. -/
def stepOk (env : RunEnv) (sv : String → Option String)
    (cmds : List CommandSpec) (j : Nat) : Prop :=
  ∃ c, cmds.get? j = some c ∧
    (∃ fj, detokenizeTpl env.toDetokEnv defaultCfg (cmdNs j) c.command sv (seqCtx env j) =
        .ok fj ∧ fj ≠ "") ∧
    (∃ out err, env.exec j = .success out err ∧ (err = "" ∨ c.ignoreErrors = true))

/-- Resolver oracle with no regex matches and no platform paths. -/
def oracleEnv : DetokEnv :=
  { regexFind := fun _ _ _ => Option.none
    isPlatformPathIdentifier := fun _ => false
    getPlatformPath := fun _ => "" }

/-- Static-value context with no entries. -/
def noSv : String → Option String := fun _ => Option.none

/-- Static-value context holding only `payload`. -/
def paySv : String → Option String :=
  fun n => if n = "payload" then some "P" else Option.none

/-- Operation oracle whose command `i` completes with stdout `OUT<i>` and an
empty stderr. -/
def runEnvA : RunEnv :=
  { toDetokEnv := oracleEnv
    exec := fun i => ExecOutcome.success ("OUT" ++ toString i) ""
    tmpDir := "/tmp/op" }

/-- Operation oracle whose command 0 completes with non-empty stderr. -/
def runEnvWarn : RunEnv :=
  { toDetokEnv := oracleEnv
    exec := fun i => if i = 0 then ExecOutcome.success "o" "warn"
                     else ExecOutcome.success "x" ""
    tmpDir := "/tmp/op" }

/-- Resolver oracle whose regex engine matches pattern `foo` with flags `i`
against the text `foo42`, with named capture group `result` equal to `42`. -/
def regexEnv : DetokEnv :=
  { regexFind := fun pat flags text =>
      if pat = "foo" ∧ flags = "i" ∧ text = "foo42" then
        some { whole := "foo4", resultGroup := some "42" }
      else Option.none
    isPlatformPathIdentifier := fun _ => false
    getPlatformPath := fun _ => "" }

/-- Expander oracle of the `expandTemplateLiteral` variant whose command
template expansion fails. -/
def cexEnv1 : Env1 :=
  { expandCwd := fun _ => .ok ""
    ensureDir := fun _ => Option.none
    expandTemplate := fun _ => .error "boom"
    exec1 := fun _ => ExecOutcome.success "" "" }

/-! ## Helper lemmas -/

theorem str_nil_append (s : String) : "" ++ s = s := by
  obtain ⟨l⟩ := s
  rfl

theorem str_append_nil (s : String) : s ++ "" = s := by
  obtain ⟨l⟩ := s
  show String.mk (l ++ []) = String.mk l
  rw [List.append_nil]

theorem push_append_mk (v : String) (c : Char) (rs : List Char) :
    v.push c ++ String.mk rs = v ++ String.mk (c :: rs) := by
  obtain ⟨l⟩ := v
  show String.mk ((l ++ [c]) ++ rs) = String.mk (l ++ (c :: rs))
  rw [List.append_assoc]
  rfl

/-- A first scan step on a character that is neither the escape character nor
an unescaped value-start, with no open token, opens a string token. -/
theorem parseGo_step_none (cfg : ParseCfg) (tpl : List Char) (c : Char) (rs : List Char)
    (i line col : Nat) (prev : Option Char) (acc : List Token)
    (hc1 : c ≠ cfg.escapeChar) (hc2 : ¬(c = cfg.valueStart ∧ ¬(prev = some cfg.escapeChar))) :
    parseGo cfg tpl (c :: rs) i line col prev .none acc =
      parseGo cfg tpl rs (i + 1) (if c = '\n' then line + 1 else line)
        (if c = '\n' then 0 else col + 1) (some c)
        (.string ⟨i, if c = '\n' then line + 1 else line, if c = '\n' then 0 else col + 1⟩
          (String.singleton c)) acc := by
  simp only [parseGo]
  rw [if_neg hc1, if_neg hc2]

/-- Scanning a run of characters free of the escape character and of the
value-start, with a string token open, appends the whole run to it. -/
theorem parseGo_pureString (cfg : ParseCfg) (tpl : List Char) (rest : List Char) :
    ∀ (i line col : Nat) (prev : Option Char) (m : TokenMeta) (v : String) (acc : List Token),
      (∀ c ∈ rest, c ≠ cfg.escapeChar ∧ c ≠ cfg.valueStart) →
      parseGo cfg tpl rest i line col prev (.string m v) acc =
        .ok (acc ++ [Token.string m (v ++ String.mk rest)]) := by
  induction rest with
  | nil =>
    intro i line col prev m v acc _
    simp only [parseGo, Building.flush]
    rw [str_append_nil]
  | cons c rs ih =>
    intro i line col prev m v acc h
    have hc1 : c ≠ cfg.escapeChar := (h c (by simp)).1
    have hc2 : c ≠ cfg.valueStart := (h c (by simp)).2
    simp only [parseGo]
    rw [if_neg hc1, if_neg (fun hh => hc2 hh.1)]
    rw [ih _ _ _ _ _ _ _ (fun x hx => h x (List.mem_cons_of_mem c hx))]
    rw [push_append_mk]

/-- C7: the spec claims that for every successfully tokenized template,
concatenating the token contents in order reproduces the newline-collapsed
template. Counterexample: the template `a\<b` tokenizes successfully into
the single string token `a<b` (the escape character is dropped by the
lexer), while the newline-collapsed template still holds the backslash, so
the two differ. -/
theorem claim_C7_counterexample :
    parseTemplate defaultCfg "a\\<b" = Except.ok [Token.string ⟨0, 0, 1⟩ "a<b"] ∧
    tokensContents [Token.string ⟨0, 0, 1⟩ "a<b"] = "a<b" ∧
    collapseWs "a\\<b" = "a\\<b" ∧ ("a<b" : String) ≠ "a\\<b" :=
  ⟨rfl, rfl, rfl, by decide⟩

/-- C7 (amended): for every template containing no escape character and no
value-start character (so that tokenization yields literal text only),
tokenization succeeds and concatenating the token contents in order yields
the normalized template (whitespace runs spanning a line break collapsed to
a single space). -/
theorem claim_C7 (t : String)
    (h : ∀ c ∈ t.toList, c ≠ defaultCfg.escapeChar ∧ c ≠ defaultCfg.valueStart) :
    ∃ toks, parseTemplate defaultCfg t = Except.ok toks ∧
      tokensContents toks = collapseWs t := by
  obtain ⟨l⟩ := t
  cases l with
  | nil => exact ⟨[], rfl, rfl⟩
  | cons c cs =>
    have hc1 : c ≠ defaultCfg.escapeChar := (h c (List.mem_cons_self c cs)).1
    have hc2 : c ≠ defaultCfg.valueStart := (h c (List.mem_cons_self c cs)).2
    have h1 : parseTemplate defaultCfg (String.mk (c :: cs)) =
        Except.ok [Token.string
          ⟨0, if c = '\n' then 0 + 1 else 0, if c = '\n' then 0 else 0 + 1⟩
          (collapseWs (String.mk (c :: cs)))] := by
      show (parseGo defaultCfg (c :: cs) (c :: cs) 0 0 0 Option.none .none []).map
        (List.map postPass) = _
      rw [parseGo_step_none defaultCfg (c :: cs) c cs 0 0 0 Option.none []
          hc1 (fun hh => hc2 hh.1)]
      rw [parseGo_pureString defaultCfg (c :: cs) cs _ _ _ _ _ _ _
          (fun x hx => h x (List.mem_cons_of_mem c hx))]
      rfl
    refine ⟨_, h1, ?_⟩
    show "" ++ collapseWs (String.mk (c :: cs)) = _
    rw [str_nil_append]

/-- C7 witness: a concrete escape-free, value-free template on which the
amended guarantee evaluates. -/
theorem claim_C7_witness :
    ∃ toks, parseTemplate defaultCfg "run a b" = Except.ok toks ∧
      tokensContents toks = collapseWs "run a b" :=
  claim_C7 "run a b" (by decide)

/-- C8: the spec claims that a second unescaped property-start inside an
open value token makes tokenization fail. Counterexample: the template
`<a[1[2]>` holds a second unescaped property-start inside the open value
token, yet tokenization succeeds — the property is silently reset and the
last segment wins. -/
theorem claim_C8_counterexample :
    parseTemplate defaultCfg "<a[1[2]>" =
      Except.ok [Token.value ⟨0, 0, 1⟩ "a" (some "2") []] := rfl

/-- C8 (amended): a second unescaped property-start inside an open value
token is not an error — it resets the captured property to empty, so the
last property segment wins; tokenization fails at a property only when an
unescaped property-end finds it empty. -/
theorem claim_C8 (tpl rest : List Char) (i line col : Nat) (prev : Option Char)
    (m : TokenMeta) (name p : String) (args : List String) (acc : List Token)
    (hprev : prev ≠ some defaultCfg.escapeChar) (hrest : rest ≠ []) :
    parseGo defaultCfg tpl ('[' :: rest) i line col prev
        (.value m name (some p) args) acc =
      parseGo defaultCfg tpl rest (i + 1) line (col + 1) (some '[')
        (.value m name (some "") args) acc ∧
    parseGo defaultCfg tpl (']' :: rest) i line col prev
        (.value m name (some "") args) acc =
      .error (emptyPropErr tpl i m.index) := by
  obtain ⟨hd, tl, rfl⟩ := List.exists_cons_of_ne_nil hrest
  constructor
  · simp +decide [parseGo, hprev]
  · simp +decide [parseGo, hprev]

/-- C8 witness: the amended step behavior evaluated at a concrete lexer
state, showing a property reset by a second property-start and an error for
an empty property. -/
theorem claim_C8_witness :
    (parseGo defaultCfg [] ('[' :: ['>']) 0 0 0 Option.none
        (.value ⟨0, 0, 0⟩ "a" (some "1") []) [] =
      parseGo defaultCfg [] ['>'] 1 0 1 (some '[')
        (.value ⟨0, 0, 0⟩ "a" (some "") []) []) ∧
    (parseGo defaultCfg [] (']' :: ['>']) 0 0 0 Option.none
        (.value ⟨0, 0, 0⟩ "a" (some "") []) [] =
      .error (emptyPropErr [] 0 0)) :=
  claim_C8 [] ['>'] 0 0 0 Option.none ⟨0, 0, 0⟩ "a" "1" [] [] (by decide) (by decide)

/-- The remainder returned by a head match of the collapse regex is a
sublist of the input. -/
theorem matchAtHead_sublist {cs rest : List Char} (h : matchAtHead cs = some rest) :
    rest.Sublist cs := by
  have hdw : (cs.dropWhile jsWS).Sublist cs := List.dropWhile_sublist _
  simp only [matchAtHead] at h
  split at h
  · next m r2 heq =>
    split at h
    · cases h
      have h1 : (r2.dropWhile jsWS).Sublist r2 := List.dropWhile_sublist _
      have h2 : r2.Sublist ('\n' :: r2) := List.sublist_cons_self _ _
      have h3 : ('\n' :: r2).Sublist (m :: '\n' :: r2) := List.sublist_cons_self _ _
      exact ((h1.trans h2).trans h3).trans (heq ▸ hdw)
    · split at h
      · cases h
        exact heq ▸ hdw
      · cases h
  · split at h
    · cases h
      exact hdw
    · cases h

/-- Every character of a collapsed string already occurred in the input or
is the space the match was replaced with. -/
theorem mem_collapseGo (fuel : Nat) : ∀ (cs : List Char) (c : Char),
    c ∈ collapseGo fuel cs → c ∈ cs ∨ c = ' ' := by
  induction fuel with
  | zero =>
    intro cs c h
    cases cs with
    | nil => simp [collapseGo] at h
    | cons x xs => exact Or.inl (by simpa [collapseGo] using h)
  | succ fuel ih =>
    intro cs c h
    cases cs with
    | nil => simp [collapseGo] at h
    | cons x xs =>
      rw [collapseGo] at h
      rcases hm : matchAtHead (x :: xs) with _ | rest <;> rw [hm] at h
      · rcases List.mem_cons.mp h with h1 | h2
        · exact Or.inl (by simp [h1])
        · rcases ih xs c h2 with h3 | h3
          · exact Or.inl (List.mem_cons_of_mem x h3)
          · exact Or.inr h3
      · rcases List.mem_cons.mp h with h1 | h2
        · exact Or.inr h1
        · rcases ih rest c h2 with h3 | h3
          · exact Or.inl ((matchAtHead_sublist hm).subset h3)
          · exact Or.inr h3

/-- Collapsing newline runs cannot introduce a character other than a
space. -/
theorem strClean_collapseWs (e : Char) (he : e ≠ ' ') (s : String)
    (h : strClean e s = true) : strClean e (collapseWs s) = true := by
  simp only [strClean, List.all_eq_true, bne_iff_ne, ne_eq] at h ⊢
  intro c hc
  rcases mem_collapseGo s.toList.length s.toList c hc with h1 | h1
  · exact h c h1
  · intro hce
    exact he (hce.symm.trans h1)

/-- Pushing a character different from `e` onto a clean string keeps it
clean. -/
theorem strClean_push (e : Char) (v : String) (c : Char)
    (hv : strClean e v = true) (hc : c ≠ e) : strClean e (v.push c) = true := by
  simp only [strClean, List.all_eq_true, bne_iff_ne, ne_eq] at hv ⊢
  intro x hx
  have hx2 : x ∈ v.data ++ [c] := by
    have : (v.push c).toList = v.data ++ [c] := String.data_push v c
    exact this ▸ hx
  rcases List.mem_append.mp hx2 with h1 | h1
  · exact hv x h1
  · simp only [List.mem_singleton] at h1
    subst h1
    exact hc

/-- Appending a character different from `e` to the last argument keeps the
arguments clean. -/
theorem appendToLast_clean (e : Char) (c : Char) (hc : c ≠ e) :
    ∀ (args : List String), args.all (strClean e) = true →
      (appendToLast args c).all (strClean e) = true := by
  intro args
  induction args with
  | nil => intro h; exact h
  | cons a rest ih =>
    intro h
    rw [List.all_cons, Bool.and_eq_true] at h
    cases rest with
    | nil =>
      have hr : appendToLast [a] c = [a.push c] := rfl
      rw [hr, List.all_cons, Bool.and_eq_true]
      exact ⟨strClean_push e a c h.1 hc, rfl⟩
    | cons b tl =>
      have hr : appendToLast (a :: b :: tl) c = a :: appendToLast (b :: tl) c := rfl
      rw [hr, List.all_cons, Bool.and_eq_true]
      exact ⟨h.1, ih h.2⟩

theorem strClean_singleton (e c : Char) (hc : c ≠ e) :
    strClean e (String.singleton c) = true := by
  simp [strClean, String.singleton, hc]

/-- Extending a clean token list with a clean token keeps it clean. -/
theorem cleanAppendTok {e : Char} {acc : List Token}
    (hacc : ∀ tok ∈ acc, tokenClean e tok = true) {t : Token}
    (ht : tokenClean e t = true) :
    ∀ tok ∈ acc ++ [t], tokenClean e tok = true := by
  intro tok htok
  rcases List.mem_append.mp htok with h1 | h1
  · exact hacc tok h1
  · simp only [List.mem_singleton] at h1
    subst h1
    exact ht

/-- The scan loop never stores the escape character: every branch that
extends a token appends a character already checked different from it. -/
theorem parseGo_clean (cfg : ParseCfg) (tpl : List Char) (rest : List Char) :
    ∀ (i line col : Nat) (prev : Option Char) (cur : Building) (acc : List Token)
      (toks : List Token),
      buildingClean cfg.escapeChar cur = true →
      (∀ tok ∈ acc, tokenClean cfg.escapeChar tok = true) →
      parseGo cfg tpl rest i line col prev cur acc = .ok toks →
      ∀ tok ∈ toks, tokenClean cfg.escapeChar tok = true := by
  induction rest with
  | nil =>
    intro i line col prev cur acc toks hcur hacc h
    simp only [parseGo, Except.ok.injEq] at h
    subst h
    intro tok htok
    rcases List.mem_append.mp htok with h1 | h1
    · exact hacc tok h1
    · cases cur with
      | none => simp [Building.flush] at h1
      | string m v =>
        simp only [Building.flush, List.mem_singleton] at h1
        subst h1
        exact hcur
      | value m n p a =>
        simp only [Building.flush, List.mem_singleton] at h1
        subst h1
        exact hcur
  | cons c rs ih =>
    intro i line col prev cur acc toks hcur hacc h
    cases cur with
    | none =>
      simp only [parseGo] at h
      by_cases hc1 : c = cfg.escapeChar
      · rw [if_pos hc1] at h
        exact ih _ _ _ _ _ _ _ hcur hacc h
      · rw [if_neg hc1] at h
        by_cases hc2 : c = cfg.valueStart ∧ ¬(prev = some cfg.escapeChar)
        · rw [if_pos hc2] at h
          refine ih _ _ _ _ _ _ _ ?_ hacc h
          rfl
        · rw [if_neg hc2] at h
          refine ih _ _ _ _ _ _ _ ?_ hacc h
          exact strClean_singleton _ _ hc1
    | string m v =>
      simp only [parseGo] at h
      by_cases hc1 : c = cfg.escapeChar
      · rw [if_pos hc1] at h
        exact ih _ _ _ _ _ _ _ hcur hacc h
      · rw [if_neg hc1] at h
        by_cases hc2 : c = cfg.valueStart ∧ ¬(prev = some cfg.escapeChar)
        · rw [if_pos hc2] at h
          refine ih _ _ _ _ _ _ _ ?_ ?_ h
          · rfl
          · exact cleanAppendTok hacc hcur
        · rw [if_neg hc2] at h
          refine ih _ _ _ _ _ _ _ ?_ hacc h
          exact strClean_push _ _ _ hcur hc1
    | value m n p a =>
      simp only [parseGo] at h
      by_cases hc1 : c = cfg.escapeChar
      · rw [if_pos hc1] at h
        exact ih _ _ _ _ _ _ _ hcur hacc h
      · rw [if_neg hc1] at h
        by_cases hc2 : c = cfg.valueStart ∧ ¬(prev = some cfg.escapeChar)
        · rw [if_pos hc2] at h
          exact absurd h (by simp)
        · rw [if_neg hc2] at h
          by_cases hc3 : c = cfg.valueEnd ∧ ¬(prev = some cfg.escapeChar)
          · rw [if_pos hc3] at h
            refine ih _ _ _ _ _ _ _ ?_ ?_ h
            · rfl
            · exact cleanAppendTok hacc hcur
          · rw [if_neg hc3] at h
            cases rs with
            | nil => exact absurd h (by simp)
            | cons next tail =>
              simp only [] at h
              have hcur2 := hcur
              simp only [buildingClean, Bool.and_eq_true] at hcur2
              by_cases hc4 : c = cfg.argSeparator ∧ ¬(prev = some cfg.escapeChar)
              · rw [if_pos hc4] at h
                refine ih _ _ _ _ _ _ _ ?_ hacc h
                simp only [buildingClean, Bool.and_eq_true, List.all_append]
                exact ⟨hcur2.1, hcur2.2, by simp [strClean]⟩
              · rw [if_neg hc4] at h
                by_cases hc5 : c = cfg.propStart ∧ ¬(prev = some cfg.escapeChar)
                · rw [if_pos hc5] at h
                  refine ih _ _ _ _ _ _ _ ?_ hacc h
                  simp only [buildingClean, Bool.and_eq_true]
                  exact ⟨⟨hcur2.1.1, rfl⟩, hcur2.2⟩
                · rw [if_neg hc5] at h
                  by_cases hc6 : c = cfg.propEnd ∧ ¬(prev = some cfg.escapeChar)
                  · rw [if_pos hc6] at h
                    by_cases hc7 : p = Option.none ∨ p = some ""
                    · rw [if_pos hc7] at h
                      exact absurd h (by simp)
                    · rw [if_neg hc7] at h
                      by_cases hc8 : next ≠ cfg.argSeparator ∧ next ≠ cfg.valueEnd
                      · rw [if_pos hc8] at h
                        exact absurd h (by simp)
                      · rw [if_neg hc8] at h
                        exact ih _ _ _ _ _ _ _ hcur hacc h
                  · rw [if_neg hc6] at h
                    cases a with
                    | cons a0 atl =>
                      refine ih _ _ _ _ _ _ _ ?_ hacc h
                      simp only [buildingClean, Bool.and_eq_true]
                      exact ⟨hcur2.1, appendToLast_clean _ _ hc1 _ hcur2.2⟩
                    | nil =>
                      cases p with
                      | some pp =>
                        refine ih _ _ _ _ _ _ _ ?_ hacc h
                        simp only [buildingClean, Bool.and_eq_true]
                        exact ⟨⟨hcur2.1.1, strClean_push _ _ _ hcur2.1.2 hc1⟩, hcur2.2⟩
                      | none =>
                        refine ih _ _ _ _ _ _ _ ?_ hacc h
                        simp only [buildingClean, Bool.and_eq_true]
                        exact ⟨⟨strClean_push _ _ _ hcur2.1.1 hc1, trivial⟩, hcur2.2⟩

/-- C9: the lexer never emits the escape character — for every template on
which tokenization succeeds, no produced token's contents (string values,
value names, properties, arguments) contain the escape character, doubled
escapes included. -/
theorem claim_C9 (t : String) (toks : List Token)
    (h : parseTemplate defaultCfg t = Except.ok toks) :
    ∀ tok ∈ toks, tokenClean defaultCfg.escapeChar tok = true := by
  unfold parseTemplate at h
  rcases hp : parseGo defaultCfg t.toList t.toList 0 0 0 Option.none .none [] with e | toks0
  · rw [hp] at h
    exact absurd h (by simp [Except.map])
  · rw [hp] at h
    simp only [Except.map, Except.ok.injEq] at h
    subst h
    intro tok htok
    rcases List.mem_map.mp htok with ⟨tok0, htok0, rfl⟩
    have hclean := parseGo_clean defaultCfg t.toList t.toList 0 0 0 Option.none
      .none [] toks0 rfl (by simp) hp tok0 htok0
    cases tok0 with
    | string m v =>
      simpa only [postPass, tokenClean] using
        strClean_collapseWs _ (by decide) v (by simpa only [tokenClean] using hclean)
    | value m n p a => simpa only [postPass] using hclean

/-- C9 witness: the template holding a doubled escape character followed by
text tokenizes to a single clean string token. -/
theorem claim_C9_witness :
    parseTemplate defaultCfg "\\\\x" = Except.ok [Token.string ⟨2, 0, 3⟩ "x"] ∧
    tokenClean defaultCfg.escapeChar (Token.string ⟨2, 0, 3⟩ "x") = true :=
  ⟨rfl, claim_C9 "\\\\x" [Token.string ⟨2, 0, 3⟩ "x"] rfl
    (Token.string ⟨2, 0, 3⟩ "x") (List.mem_singleton.mpr rfl)⟩

/-- C10: resolving a `stdout` token whose selected index holds the empty
string fails with exactly the same "references non-existent stdout index"
error as an index that was never written — an empty captured stdout is never
substituted. -/
theorem claim_C10 (env : DetokEnv) (ns : String) (sv : String → Option String)
    (m : TokenMeta) (p : String) (s1 s2 : List (Option String))
    (h1 : selectStdout s1 (some p) = some "")
    (h2 : selectStdout s2 (some p) = Option.none) :
    detokenize env ns [Token.value m "stdout" (some p) []] sv s1 =
      detokenize env ns [Token.value m "stdout" (some p) []] sv s2 ∧
    detokenize env ns [Token.value m "stdout" (some p) []] sv s1 =
      .error (nonExistentStdoutErr ns (positionStr m) "<stdout>" p) := by
  constructor <;>
    simp [detokenize, detokGo, h1, h2, stdoutTokenStr, stdoutIndexStr]

/-- C10 witness: stdout index 0 holding the empty capture of a settled
command behaves exactly like the missing index 0 of an empty context. -/
theorem claim_C10_witness :
    detokenize oracleEnv "result[0]" [Token.value ⟨0, 0, 1⟩ "stdout" (some "0") []]
        noSv [some ""] =
      detokenize oracleEnv "result[0]" [Token.value ⟨0, 0, 1⟩ "stdout" (some "0") []]
        noSv [] ∧
    detokenize oracleEnv "result[0]" [Token.value ⟨0, 0, 1⟩ "stdout" (some "0") []]
        noSv [some ""] =
      .error (nonExistentStdoutErr "result[0]" (positionStr ⟨0, 0, 1⟩) "<stdout>" "0") :=
  claim_C10 oracleEnv "result[0]" noSv ⟨0, 0, 1⟩ "0" [some ""] [] (by rfl) (by rfl)

/-- Skipping a run of word characters while scanning for the flags
separator only accumulates them. -/
theorem splitRev_skip (l : List Char) (hl : l.all jsWordChar = true) :
    ∀ (fAcc rest : List Char), splitRev fAcc (l ++ rest) = splitRev (l.reverse ++ fAcc) rest := by
  induction l with
  | nil => intro fAcc rest; rfl
  | cons c cl ih =>
    intro fAcc rest
    rw [List.all_cons, Bool.and_eq_true] at hl
    have hslash : c ≠ '/' := by
      intro hc
      subst hc
      exact absurd hl.1 (by decide)
    have hstep : splitRev fAcc ((c :: cl) ++ rest) = splitRev (c :: fAcc) (cl ++ rest) := by
      simp only [splitRev, List.cons_append]
      rw [if_neg (fun hh => hslash hh.1)]
      rfl
    rw [hstep, ih hl.2 (c :: fAcc) rest]
    simp

/-- C6: a `stdout` token with one regex argument uses `/pattern/flags` with
exactly those flags when the argument has that shape, and otherwise treats
the argument as a bare pattern with the default flags `is`; a match
substitutes the named capture group `result` when present and the whole
match otherwise; and no match fails with an error carrying the first 1000
characters of the searched text. -/
theorem claim_C6 (env : DetokEnv) (ns : String) (sv : String → Option String)
    (m : TokenMeta) (s a : String) (hs : s ≠ "") (ha : a ≠ "") :
    (∀ mt, env.regexFind (parseRegexArg a).1 (parseRegexArg a).2 s = some mt →
      detokenize env ns [Token.value m "stdout" Option.none [a]] sv [some s] =
        .ok (jsTrim (mt.resultGroup.getD mt.whole))) ∧
    (env.regexFind (parseRegexArg a).1 (parseRegexArg a).2 s = Option.none →
      detokenize env ns [Token.value m "stdout" Option.none [a]] sv [some s] =
        .error (noMatchErr ns (positionStr m) (stdoutTokenStr [a]) "0" (s.take 1000))) ∧
    (∀ p f : String, p.toList.all jsDotChar = true → f.toList.all jsWordChar = true →
      parseRegexArg ("/" ++ p ++ "/" ++ f) = (p, f)) ∧
    (∀ (b : String) (c : Char) (cs : List Char), b.toList = c :: cs → c ≠ '/' →
      parseRegexArg b = (b, "is")) := by
  refine ⟨?_, ?_, ?_, ?_⟩
  · intro mt hmt
    simp [detokenize, detokGo, stdoutIndexStr, selectStdout, sparseGet, hs, ha, hmt,
      str_nil_append]
  · intro hmt
    simp [detokenize, detokGo, stdoutIndexStr, selectStdout, sparseGet, hs, ha, hmt]
    rfl
  · intro p f hp hf
    obtain ⟨lp⟩ := p
    obtain ⟨lf⟩ := f
    have hbody : (("/" ++ String.mk lp ++ "/" ++ String.mk lf) : String).toList =
        '/' :: (lp ++ '/' :: lf) := by
      show ((['/'] ++ lp) ++ ['/']) ++ lf = '/' :: (lp ++ '/' :: lf)
      simp
    unfold parseRegexArg
    rw [hbody]
    simp only [List.head?, List.tail_cons]
    rw [if_pos trivial]
    have hrev : (lp ++ '/' :: lf).reverse = lf.reverse ++ ('/' :: lp.reverse) := by
      simp
    rw [hrev]
    have hfrev : lf.reverse.all jsWordChar = true := by
      simpa [List.all_eq_true] using (List.all_eq_true.mp hf)
    rw [splitRev_skip lf.reverse hfrev [] ('/' :: lp.reverse)]
    have hprev : lp.reverse.all jsDotChar = true := by
      simpa [List.all_eq_true] using (List.all_eq_true.mp hp)
    have hfall : lf.all jsWordChar = true := hf
    simp only [List.reverse_reverse, List.append_nil]
    rw [splitRev]
    rw [if_pos ⟨rfl, hfall, hprev⟩]
    simp
  · intro b c cs hb hc
    unfold parseRegexArg
    rw [hb]
    simp only [List.head?]
    rw [if_neg (fun hh => hc (by injection hh))]
/-- C6 witness: `<stdout:/foo(?<result>42)/i>`-style resolution evaluated —
the slash form parses to pattern `foo` with flag `i`, the bare form keeps
default flags `is`, and the named capture group substitutes. -/
theorem claim_C6_witness :
    detokenize regexEnv "command[0]"
        [Token.value ⟨0, 0, 1⟩ "stdout" Option.none ["/foo/i"]] noSv [some "foo42"] =
      .ok "42" ∧
    parseRegexArg "/foo/i" = ("foo", "i") ∧
    parseRegexArg "bar" = ("bar", "is") := by
  have h := claim_C6 regexEnv "command[0]" noSv ⟨0, 0, 1⟩ "foo42" "/foo/i"
    (by decide) (by decide)
  refine ⟨?_, ?_, ?_⟩
  · exact h.1 { whole := "foo4", resultGroup := some "42" } (by rfl)
  · exact h.2.2.1 "foo" "i" (by decide) (by decide)
  · exact h.2.2.2 "bar" 'b' ['a', 'r'] rfl (by decide)

/-- C5: a command whose resolved template text is the empty string aborts
the operation fatally and is never launched, in both sequential and parallel
mode, regardless of the ignore-errors flag: the loop adds no launch event
for it or for anything after it and returns the fatal empty-command error. -/
theorem claim_C5 (env : RunEnv) (sv : String → Option String) (total : Nat)
    (c : CommandSpec) (rest : List CommandSpec) (i : Nat)
    (stdouts : List (Option String)) (evs : List Ev)
    (h : detokenizeTpl env.toDetokEnv defaultCfg (cmdNs i) c.command sv stdouts = .ok "") :
    seqLoop env sv total (c :: rest) i stdouts evs =
      (stdouts, evs ++ [Ev.stage (stageMsg i total)], some (emptyCommandMsg i)) ∧
    parDispatch env sv stdouts (c :: rest) i evs = ([], evs, some (emptyCommandMsg i)) := by
  constructor
  · simp [seqLoop, h]
  · simp [parDispatch, h]

/-- C5 witness: a template of pure whitespace resolves to the empty string
(after the final trim) and kills the operation in both modes even with
ignore-errors on. -/
theorem claim_C5_witness :
    seqLoop runEnvA paySv 1 [⟨" ", "", true⟩] 0 [] [] =
      ([], [] ++ [Ev.stage (stageMsg 0 1)], some (emptyCommandMsg 0)) ∧
    parDispatch runEnvA paySv [] [⟨" ", "", true⟩] 0 [] =
      ([], [], some (emptyCommandMsg 0)) :=
  claim_C5 runEnvA paySv 1 ⟨" ", "", true⟩ [] 0 [] [] (by rfl)

/-- C3: in sequential mode, a command that completes with non-empty captured
stderr while its ignore-errors flag is off stops the chain: the loop result
is exactly the state after that command settles, and every launch event in
the result is either pre-existing or that command's own — no later command
is ever launched. -/
theorem claim_C3 (env : RunEnv) (sv : String → Option String) (total : Nat)
    (c : CommandSpec) (rest : List CommandSpec) (i : Nat)
    (stdouts : List (Option String)) (evs : List Ev) (filled out err : String)
    (hres : detokenizeTpl env.toDetokEnv defaultCfg (cmdNs i) c.command sv stdouts =
      .ok filled)
    (hfilled : filled ≠ "")
    (hexec : env.exec i = .success out err)
    (herr : err ≠ "") (hflag : c.ignoreErrors = false) :
    seqLoop env sv total (c :: rest) i stdouts evs =
      (sparseSet stdouts i out,
       evs ++ [Ev.stage (stageMsg i total), Ev.launched i filled (cwdUsedFor env.tmpDir c)],
       Option.none) ∧
    ∀ j cmd cw, Ev.launched j cmd cw ∈ (seqLoop env sv total (c :: rest) i stdouts evs).2.1 →
      Ev.launched j cmd cw ∈ evs ∨ (j = i ∧ cmd = filled) := by
  have h1 : seqLoop env sv total (c :: rest) i stdouts evs =
      (sparseSet stdouts i out,
       evs ++ [Ev.stage (stageMsg i total), Ev.launched i filled (cwdUsedFor env.tmpDir c)],
       Option.none) := by
    simp [seqLoop, hres, hfilled, hexec, herr, hflag]
  refine ⟨h1, ?_⟩
  intro j cmd cw hmem
  rw [h1] at hmem
  simp only [List.mem_append, List.mem_cons, List.mem_singleton,
    List.not_mem_nil, or_false] at hmem
  rcases hmem with h2 | h2 | h2
  · exact Or.inl h2
  · exact absurd h2 (by simp)
  · injection h2 with hj hcm hcw
    exact Or.inr ⟨hj, hcm⟩

/-- C3 witness: command 0 completes with stderr `warn` and ignore-errors
off; the loop stops with only command 0 launched, command 1 never starts. -/
theorem claim_C3_witness :
    seqLoop runEnvWarn paySv 2 [⟨"a", "", false⟩, ⟨"b", "", false⟩] 0 [] [] =
      (sparseSet [] 0 "o",
       [] ++ [Ev.stage (stageMsg 0 2),
              Ev.launched 0 "a" (cwdUsedFor runEnvWarn.tmpDir ⟨"a", "", false⟩)],
       Option.none) :=
  (claim_C3 runEnvWarn paySv 2 ⟨"a", "", false⟩ [⟨"b", "", false⟩] 0 [] [] "a" "o" "warn"
    rfl (by decide) rfl (by decide) rfl).1
/-- The sequential loop of the `expandTemplateLiteral` variant only appends
stage, launch and error-report events — never temporary-directory events. -/
theorem run1Seq_tail (env : Env1) (tmpDir : String) (total : Nat) :
    ∀ (cmds : List CommandSpec) (i : Nat) (evs : List Ev),
      ∃ tail, (run1Seq env tmpDir total cmds i evs).1 = evs ++ tail ∧
        ∀ e ∈ tail, e ≠ Ev.tmpDirCreated ∧ e ≠ Ev.tmpDirDeleted := by
  intro cmds
  induction cmds with
  | nil =>
    intro i evs
    exact ⟨[], by simp [run1Seq], by simp⟩
  | cons c rest ih =>
    intro i evs
    rcases hp : prepare1 env tmpDir i c with e | fc
    · refine ⟨[Ev.stage (stageMsg i total), Ev.errorOut e], ?_, ?_⟩
      · simp [run1Seq, hp]
      · intro ev hev
        simp only [List.mem_cons, List.not_mem_nil, or_false] at hev
        rcases hev with rfl | rfl
        · exact ⟨by simp, by simp⟩
        · exact ⟨by simp, by simp⟩
    · rcases hx : env.exec1 i with ⟨out, err⟩ | code
      · obtain ⟨tail, ht, hcl⟩ :=
          ih (i + 1) (evs ++ [Ev.stage (stageMsg i total)] ++ [Ev.launched i fc.1 fc.2])
        refine ⟨[Ev.stage (stageMsg i total), Ev.launched i fc.1 fc.2] ++ tail, ?_, ?_⟩
        · simp only [run1Seq, hp, hx]
          rw [ht]
          simp
        · intro ev hev
          rcases List.mem_append.mp hev with h2 | h2
          · simp only [List.mem_cons, List.not_mem_nil, or_false] at h2
            rcases h2 with rfl | rfl
            · exact ⟨by simp, by simp⟩
            · exact ⟨by simp, by simp⟩
          · exact hcl ev h2
      · by_cases hig : c.ignoreErrors
        · obtain ⟨tail, ht, hcl⟩ := ih (i + 1)
            (evs ++ [Ev.stage (stageMsg i total)] ++ [Ev.launched i fc.1 fc.2] ++
              [Ev.errorOut (failedMsg1 i code)])
          refine ⟨[Ev.stage (stageMsg i total), Ev.launched i fc.1 fc.2,
            Ev.errorOut (failedMsg1 i code)] ++ tail, ?_, ?_⟩
          · simp only [run1Seq, hp, hx]
            rw [if_neg (by simp [hig])]
            rw [ht]
            simp
          · intro ev hev
            rcases List.mem_append.mp hev with h2 | h2
            · simp only [List.mem_cons, List.not_mem_nil, or_false] at h2
              rcases h2 with rfl | rfl | rfl
              · exact ⟨by simp, by simp⟩
              · exact ⟨by simp, by simp⟩
              · exact ⟨by simp, by simp⟩
            · exact hcl ev h2
        · refine ⟨[Ev.stage (stageMsg i total), Ev.launched i fc.1 fc.2,
            Ev.errorOut (failedMsg1 i code)], ?_, ?_⟩
          · simp only [run1Seq, hp, hx]
            rw [if_pos (by simp [hig])]
            simp
          · intro ev hev
            simp only [List.mem_cons, List.not_mem_nil, or_false] at hev
            rcases hev with rfl | rfl | rfl
            · exact ⟨by simp, by simp⟩
            · exact ⟨by simp, by simp⟩
            · exact ⟨by simp, by simp⟩

/-- The parallel dispatch loop of the `expandTemplateLiteral` variant only
appends launch and error-report events. -/
theorem run1Par_tail (env : Env1) (tmpDir : String) :
    ∀ (cmds : List CommandSpec) (i : Nat) (evs : List Ev),
      ∃ tail, (run1Par env tmpDir cmds i evs).2.1 = evs ++ tail ∧
        ∀ e ∈ tail, e ≠ Ev.tmpDirCreated ∧ e ≠ Ev.tmpDirDeleted := by
  intro cmds
  induction cmds with
  | nil =>
    intro i evs
    exact ⟨[], by simp [run1Par], by simp⟩
  | cons c rest ih =>
    intro i evs
    rcases hp : prepare1 env tmpDir i c with e | fc
    · refine ⟨[Ev.errorOut e], ?_, ?_⟩
      · simp [run1Par, hp]
      · intro ev hev
        simp only [List.mem_singleton] at hev
        subst hev
        exact ⟨by simp, by simp⟩
    · obtain ⟨tail, ht, hcl⟩ := ih (i + 1) (evs ++ [Ev.launched i fc.1 fc.2])
      refine ⟨[Ev.launched i fc.1 fc.2] ++ tail, ?_, ?_⟩
      · simp only [run1Par, hp]
        rw [ht]
        simp
      · intro ev hev
        rcases List.mem_append.mp hev with h2 | h2
        · simp only [List.mem_singleton] at h2
          subst h2
          exact ⟨by simp, by simp⟩
        · exact hcl ev h2

/-- The parallel join barrier of the `expandTemplateLiteral` variant only
appends error-report events. -/
theorem run1Settle_tail (env : Env1) :
    ∀ (idxs : List Nat) (evs : List Ev),
      ∃ tail, run1Settle env idxs evs = evs ++ tail ∧
        ∀ e ∈ tail, e ≠ Ev.tmpDirCreated ∧ e ≠ Ev.tmpDirDeleted := by
  intro idxs
  induction idxs with
  | nil =>
    intro evs
    exact ⟨[], by simp [run1Settle], by simp⟩
  | cons i rest ih =>
    intro evs
    rcases hx : env.exec1 i with ⟨out, err⟩ | code
    · obtain ⟨tail, ht, hcl⟩ := ih evs
      exact ⟨tail, by simp only [run1Settle, hx]; exact ht, hcl⟩
    · obtain ⟨tail, ht, hcl⟩ := ih (evs ++ [Ev.errorOut (failedMsg1 i code)])
      refine ⟨[Ev.errorOut (failedMsg1 i code)] ++ tail, ?_, ?_⟩
      · simp only [run1Settle, hx]
        rw [ht]
        simp
      · intro ev hev
        rcases List.mem_append.mp hev with h2 | h2
        · simp only [List.mem_singleton] at h2
          subst h2
          exact ⟨by simp, by simp⟩
        · exact hcl ev h2

/-- A tail free of temporary-directory events contributes no counts of
them. -/
theorem count_clean_tail {tail : List Ev}
    (h : ∀ e ∈ tail, e ≠ Ev.tmpDirCreated ∧ e ≠ Ev.tmpDirDeleted) :
    tail.count Ev.tmpDirCreated = 0 ∧ tail.count Ev.tmpDirDeleted = 0 := by
  constructor <;> rw [List.count_eq_zero] <;> intro hmem
  · exact (h _ hmem).1 rfl
  · exact (h _ hmem).2 rfl
/-- C2: the spec claims the shared temporary directory is deleted exactly
once after all commands settle regardless of how execution ended, including
a fatal template error. Counterexample: with one blank-cwd command whose
template expansion fails, the directory is created, the error is reported
and the operation returns early — the deletion never happens. -/
theorem claim_C2_counterexample :
    run1 cexEnv1 [⟨"t", "", false⟩] false "/tmp/op" =
      ([Ev.tmpDirCreated, Ev.stage (stageMsg 0 1), Ev.errorOut "boom"], true) ∧
    (run1 cexEnv1 [⟨"t", "", false⟩] false "/tmp/op").1.count Ev.tmpDirDeleted = 0 ∧
    Ev.tmpDirCreated ∈ (run1 cexEnv1 [⟨"t", "", false⟩] false "/tmp/op").1 :=
  ⟨rfl, rfl, by decide⟩

/-- C2 (amended): the shared temporary directory is created if and only if
at least one CommandSpec has a blank (after trim) cwd field — and then
exactly once; it is deleted exactly once when execution ends by full
completion or by stop-on-error, and is not deleted when a fatal
template/cwd-resolution error (or an empty resolved command) aborts the
operation early. -/
theorem claim_C2 (env : Env1) (cmds : List CommandSpec) (parallelMode : Bool)
    (tmpDir : String) :
    (Ev.tmpDirCreated ∈ (run1 env cmds parallelMode tmpDir).1 ↔
      cmds.any (fun c => (jsTrim c.cwd).length = 0) = true) ∧
    ((run1 env cmds parallelMode tmpDir).1.count Ev.tmpDirCreated =
      if cmds.any (fun c => (jsTrim c.cwd).length = 0) then 1 else 0) ∧
    ((run1 env cmds parallelMode tmpDir).1.count Ev.tmpDirDeleted =
      if cmds.any (fun c => (jsTrim c.cwd).length = 0) ∧
          (run1 env cmds parallelMode tmpDir).2 = false then 1 else 0) := by
  have hloop : ∀ evs0 : List Ev, ∃ tail,
      (if parallelMode then
        (run1Settle env (run1Par env tmpDir cmds 0 evs0).1
          (run1Par env tmpDir cmds 0 evs0).2.1, (run1Par env tmpDir cmds 0 evs0).2.2)
      else run1Seq env tmpDir cmds.length cmds 0 evs0).1 = evs0 ++ tail ∧
      ∀ e ∈ tail, e ≠ Ev.tmpDirCreated ∧ e ≠ Ev.tmpDirDeleted := by
    intro evs0
    cases parallelMode with
    | false => simpa using run1Seq_tail env tmpDir cmds.length cmds 0 evs0
    | true =>
      obtain ⟨t1, h1, hc1⟩ := run1Par_tail env tmpDir cmds 0 evs0
      obtain ⟨t2, h2, hc2⟩ := run1Settle_tail env (run1Par env tmpDir cmds 0 evs0).1
        (run1Par env tmpDir cmds 0 evs0).2.1
      refine ⟨t1 ++ t2, ?_, ?_⟩
      · simp only [if_true]
        rw [h2, h1, List.append_assoc]
      · intro e he
        rcases List.mem_append.mp he with h | h
        · exact hc1 e h
        · exact hc2 e h
  set needed := cmds.any (fun c => (jsTrim c.cwd).length = 0) with hneed
  set evs0 : List Ev := if needed then [Ev.tmpDirCreated] else [] with hevs0
  obtain ⟨tail, htail, hclean⟩ := hloop evs0
  have hcounts := count_clean_tail hclean
  have hrun : run1 env cmds parallelMode tmpDir =
      (let r := if parallelMode then
          (run1Settle env (run1Par env tmpDir cmds 0 evs0).1
            (run1Par env tmpDir cmds 0 evs0).2.1, (run1Par env tmpDir cmds 0 evs0).2.2)
        else run1Seq env tmpDir cmds.length cmds 0 evs0
      if r.2 then (r.1, true)
      else (r.1 ++ (if needed then [Ev.tmpDirDeleted] else []), false)) := by
    rw [run1]
  set r := if parallelMode then
      (run1Settle env (run1Par env tmpDir cmds 0 evs0).1
        (run1Par env tmpDir cmds 0 evs0).2.1, (run1Par env tmpDir cmds 0 evs0).2.2)
    else run1Seq env tmpDir cmds.length cmds 0 evs0 with hr
  have hr1 : r.1 = evs0 ++ tail := htail
  have hcnt0c : evs0.count Ev.tmpDirCreated = if needed then 1 else 0 := by
    rw [hevs0]
    cases needed <;> simp
  have hcnt0d : evs0.count Ev.tmpDirDeleted = if needed then 0 else 0 := by
    rw [hevs0]
    cases needed <;> simp
  have hmem0 : Ev.tmpDirCreated ∈ evs0 ↔ needed = true := by
    rw [hevs0]
    cases needed <;> simp
  cases hb : r.2 with
  | true =>
    have hout : run1 env cmds parallelMode tmpDir = (r.1, true) := by
      rw [hrun]
      simp only [← hr, hb, if_true]
    rw [hout]
    refine ⟨?_, ?_, ?_⟩
    · simp only [hr1, List.mem_append]
      constructor
      · intro h
        rcases h with h | h
        · exact hmem0.mp h
        · exact absurd rfl (hclean _ h).1
      · intro h
        exact Or.inl (hmem0.mpr h)
    · rw [hr1, List.count_append, hcnt0c, hcounts.1]
      simp
    · rw [hr1, List.count_append, hcnt0d, hcounts.2]
      simp
  | false =>
    have hout : run1 env cmds parallelMode tmpDir =
        (r.1 ++ (if needed then [Ev.tmpDirDeleted] else []), false) := by
      rw [hrun]
      simp [hb]
    rw [hout]
    refine ⟨?_, ?_, ?_⟩
    · simp only [hr1, List.mem_append]
      constructor
      · intro h
        rcases h with (h | h) | h
        · exact hmem0.mp h
        · exact absurd rfl (hclean _ h).1
        · cases hn : needed with
          | false => simp [hn] at h
          | true => rfl
      · intro h
        exact Or.inl (Or.inl (hmem0.mpr h))
    · rw [List.count_append, hr1, List.count_append, hcnt0c, hcounts.1]
      cases needed <;> simp
    · rw [List.count_append, hr1, List.count_append, hcnt0d, hcounts.2]
      cases needed <;> simp
/-- The emission loop only appends events. -/
theorem emitLoop_events_mono (env : RunEnv) (sv : String → Option String)
    (stdouts : List (Option String)) (mode : OutputMode) :
    ∀ (outs : List OutputSpec) (k : Nat) (evs : List Ev),
      ∃ tail, (emitLoop env sv stdouts mode outs k evs).1 = evs ++ tail := by
  intro outs
  induction outs with
  | nil =>
    intro k evs
    exact ⟨[], by simp [emitLoop]⟩
  | cons o rest ih =>
    intro k evs
    rcases hres : detokenizeTpl env.toDetokEnv defaultCfg ("result[" ++ toString k ++ "]")
        o.template sv stdouts with e | filled
    · exact ⟨[], by simp [emitLoop, hres]⟩
    · by_cases hf : filled = ""
      · have hsplit : (if mode = OutputMode.all then evs ++ [Ev.errorOut (emptyResultMsg k)]
            else evs) =
            evs ++ (if mode = OutputMode.all then [Ev.errorOut (emptyResultMsg k)] else []) := by
          by_cases hm : mode = OutputMode.all <;> simp [hm]
        obtain ⟨tail, ht⟩ := ih (k + 1)
          (if mode = OutputMode.all then evs ++ [Ev.errorOut (emptyResultMsg k)] else evs)
        refine ⟨(if mode = OutputMode.all then [Ev.errorOut (emptyResultMsg k)] else []) ++ tail,
          ?_⟩
        simp only [emitLoop, hres]
        rw [if_neg (fun hh => hh hf), ht, hsplit, List.append_assoc]
      · by_cases hm : mode = OutputMode.first
        · refine ⟨[Ev.emit k o.type filled], ?_⟩
          simp only [emitLoop, hres]
          rw [if_pos hf, if_pos hm]
        · obtain ⟨tail, ht⟩ := ih (k + 1) (evs ++ [Ev.emit k o.type filled])
          refine ⟨[Ev.emit k o.type filled] ++ tail, ?_⟩
          simp only [emitLoop, hres]
          rw [if_pos hf, if_neg hm, ht, List.append_assoc]

/-- Every emission event the loop adds carries an index at least the loop
counter. -/
theorem emitLoop_emit_lb (env : RunEnv) (sv : String → Option String)
    (stdouts : List (Option String)) (mode : OutputMode) :
    ∀ (outs : List OutputSpec) (k : Nat) (evs : List Ev) (n : Nat) (t : OutputType)
      (p : String),
      Ev.emit n t p ∈ (emitLoop env sv stdouts mode outs k evs).1 →
      Ev.emit n t p ∈ evs ∨ k ≤ n := by
  intro outs
  induction outs with
  | nil =>
    intro k evs n t p h
    exact Or.inl (by simpa [emitLoop] using h)
  | cons o rest ih =>
    intro k evs n t p h
    rcases hres : detokenizeTpl env.toDetokEnv defaultCfg ("result[" ++ toString k ++ "]")
        o.template sv stdouts with e | filled
    · simp only [emitLoop, hres] at h
      exact Or.inl h
    · simp only [emitLoop, hres] at h
      by_cases hf : filled = ""
      · rw [if_neg (fun hh => hh hf)] at h
        rcases ih (k + 1) _ n t p h with h2 | h2
        · by_cases hm : mode = OutputMode.all
          · rw [if_pos hm] at h2
            rcases List.mem_append.mp h2 with h3 | h3
            · exact Or.inl h3
            · simp only [List.mem_singleton] at h3
              exact absurd h3 (by simp)
          · rw [if_neg hm] at h2
            exact Or.inl h2
        · exact Or.inr (Nat.le_of_succ_le h2)
      · rw [if_pos hf] at h
        by_cases hm : mode = OutputMode.first
        · rw [if_pos hm] at h
          rcases List.mem_append.mp h with h3 | h3
          · exact Or.inl h3
          · simp only [List.mem_singleton] at h3
            injection h3 with hn _ _
            exact Or.inr (Nat.le_of_eq hn.symm)
        · rw [if_neg hm] at h
          rcases ih (k + 1) _ n t p h with h2 | h2
          · rcases List.mem_append.mp h2 with h3 | h3
            · exact Or.inl h3
            · simp only [List.mem_singleton] at h3
              injection h3 with hn _ _
              exact Or.inr (Nat.le_of_eq hn.symm)
          · exact Or.inr (Nat.le_of_succ_le h2)

/-- C1 (amended): in emission mode `all`, when the output phase completes
without a fatal resolution error, every output whose resolved text is
non-empty is emitted as its declared type, and every output whose resolved
text is empty is reported as an error and not emitted — regardless of its
declared type, including `string`. -/
theorem claim_C1 (env : RunEnv) (sv : String → Option String)
    (stdouts : List (Option String)) (outs : List OutputSpec) :
    ∀ (k : Nat) (evs : List Ev),
      (emitLoop env sv stdouts OutputMode.all outs k evs).2 = Option.none →
      ∀ (j : Nat) (o : OutputSpec), outs.get? j = some o →
        ∃ filled,
          detokenizeTpl env.toDetokEnv defaultCfg ("result[" ++ toString (k + j) ++ "]")
            o.template sv stdouts = .ok filled ∧
          (filled ≠ "" →
            Ev.emit (k + j) o.type filled ∈
              (emitLoop env sv stdouts OutputMode.all outs k evs).1) ∧
          (filled = "" →
            Ev.errorOut (emptyResultMsg (k + j)) ∈
              (emitLoop env sv stdouts OutputMode.all outs k evs).1 ∧
            ∀ t p, Ev.emit (k + j) t p ∈
                (emitLoop env sv stdouts OutputMode.all outs k evs).1 →
              Ev.emit (k + j) t p ∈ evs) := by
  induction outs with
  | nil =>
    intro k evs _ j o hj
    exact absurd hj (by simp)
  | cons o0 rest ih =>
    intro k evs hok j o hj
    rcases hres : detokenizeTpl env.toDetokEnv defaultCfg ("result[" ++ toString k ++ "]")
        o0.template sv stdouts with e | filled0
    · simp only [emitLoop, hres] at hok
      exact absurd hok (by simp)
    · have hstepEmpty : filled0 = "" →
          emitLoop env sv stdouts OutputMode.all (o0 :: rest) k evs =
            emitLoop env sv stdouts OutputMode.all rest (k + 1)
              (evs ++ [Ev.errorOut (emptyResultMsg k)]) := by
        intro hf
        simp [emitLoop, hres, hf]
      have hstepFull : filled0 ≠ "" →
          emitLoop env sv stdouts OutputMode.all (o0 :: rest) k evs =
            emitLoop env sv stdouts OutputMode.all rest (k + 1)
              (evs ++ [Ev.emit k o0.type filled0]) := by
        intro hf
        simp [emitLoop, hres, hf]
      cases j with
      | zero =>
        simp only [List.get?] at hj
        injection hj with hj
        subst hj
        refine ⟨filled0, by simpa using hres, ?_, ?_⟩
        · intro hff
          rw [hstepFull hff]
          obtain ⟨tail, ht⟩ := emitLoop_events_mono env sv stdouts OutputMode.all rest
            (k + 1) (evs ++ [Ev.emit k o0.type filled0])
          rw [ht]
          simp
        · intro hff
          constructor
          · rw [hstepEmpty hff]
            obtain ⟨tail, ht⟩ := emitLoop_events_mono env sv stdouts OutputMode.all rest
              (k + 1) (evs ++ [Ev.errorOut (emptyResultMsg k)])
            rw [ht]
            simp
          · intro t p hmem
            rw [hstepEmpty hff] at hmem
            rcases emitLoop_emit_lb env sv stdouts OutputMode.all rest (k + 1) _ _ _ _ hmem
              with h2 | h2
            · rcases List.mem_append.mp h2 with h3 | h3
              · exact h3
              · simp only [List.mem_singleton] at h3
                exact absurd h3 (by simp)
            · omega
      | succ j0 =>
        have hj0 : rest.get? j0 = some o := hj
        by_cases hf : filled0 = ""
        · have hok2 : (emitLoop env sv stdouts OutputMode.all rest (k + 1)
              (evs ++ [Ev.errorOut (emptyResultMsg k)])).2 = Option.none := by
            rw [← hstepEmpty hf]
            exact hok
          obtain ⟨filled, hfres, hne, hemp⟩ := ih (k + 1)
            (evs ++ [Ev.errorOut (emptyResultMsg k)]) hok2 j0 o hj0
          have hidx : k + 1 + j0 = k + (j0 + 1) := by omega
          rw [hidx] at hfres hne hemp
          refine ⟨filled, hfres, ?_, ?_⟩
          · intro hff
            rw [hstepEmpty hf]
            exact hne hff
          · intro hff
            obtain ⟨herr, hnoemit⟩ := hemp hff
            constructor
            · rw [hstepEmpty hf]
              exact herr
            · intro t p hmem
              rw [hstepEmpty hf] at hmem
              have h4 := hnoemit t p hmem
              rcases List.mem_append.mp h4 with h3 | h3
              · exact h3
              · simp only [List.mem_singleton] at h3
                exact absurd h3 (by simp)
        · have hok2 : (emitLoop env sv stdouts OutputMode.all rest (k + 1)
              (evs ++ [Ev.emit k o0.type filled0])).2 = Option.none := by
            rw [← hstepFull hf]
            exact hok
          obtain ⟨filled, hfres, hne, hemp⟩ := ih (k + 1)
            (evs ++ [Ev.emit k o0.type filled0]) hok2 j0 o hj0
          have hidx : k + 1 + j0 = k + (j0 + 1) := by omega
          rw [hidx] at hfres hne hemp
          refine ⟨filled, hfres, ?_, ?_⟩
          · intro hff
            rw [hstepFull hf]
            exact hne hff
          · intro hff
            obtain ⟨herr, hnoemit⟩ := hemp hff
            constructor
            · rw [hstepFull hf]
              exact herr
            · intro t p hmem
              rw [hstepFull hf] at hmem
              have h4 := hnoemit t p hmem
              rcases List.mem_append.mp h4 with h3 | h3
              · exact h3
              · simp only [List.mem_singleton] at h3
                injection h3 with hn _ _
                omega

/-- C1: the spec claims that in mode `all` an empty result of declared type
`string` is emitted successfully rather than reported as an error.
Counterexample: a single string-typed output with an empty template resolves
to the empty string and the run reports the empty-result error, emitting
nothing. -/
theorem claim_C1_counterexample :
    processorRun runEnvA paySv
      { parallelMode := false, commands := [],
        outputs := [{ type := OutputType.string, template := "" }],
        outputMode := OutputMode.all } =
      ⟨[Ev.tmpDirCreated, Ev.tmpDirDeleted,
        Ev.errorOut (emptyResultMsg 0)], Option.none⟩ ∧
    Ev.errorOut (emptyResultMsg 0) ∈ (processorRun runEnvA paySv
      { parallelMode := false, commands := [],
        outputs := [{ type := OutputType.string, template := "" }],
        outputMode := OutputMode.all }).events :=
  ⟨rfl, by decide⟩

/-- C1 witness: the amended emission rule evaluated on a concrete run —
an empty string-typed output at index 0 is reported as an error. -/
theorem claim_C1_witness :
    Ev.errorOut (emptyResultMsg 0) ∈
      (emitLoop runEnvA paySv [] OutputMode.all
        [{ type := OutputType.string, template := "" }] 0 []).1 := by
  obtain ⟨filled, hres, _, hemp⟩ := claim_C1 runEnvA paySv []
    [{ type := OutputType.string, template := "" }] 0 [] rfl 0
    { type := OutputType.string, template := "" } rfl
  have hf : filled = "" := by
    have : Except.ok (ε := String) "" = Except.ok filled := by
      rw [← hres]
      rfl
    injection this with hh
    exact hh.symm
  exact (hemp hf).1
/-- Reading back the index just written into the sparse stdout array. -/
theorem sparseSet_getD_self (l : List (Option String)) (i : Nat) (v : String) :
    (sparseSet l i v).getD i Option.none = some v := by
  unfold sparseSet
  by_cases h : i < l.length
  · rw [if_pos h, List.getD_eq_getElem?_getD, List.getElem?_set_self h]
    rfl
  · rw [if_neg h, List.getD_eq_getElem?_getD, List.append_assoc,
      List.getElem?_append_right (show l.length ≤ i by omega),
      List.getElem?_append_right (show (List.replicate (i - l.length)
        (Option.none : Option String)).length ≤ i - l.length by simp)]
    simp

/-- A sparse write leaves every other index unchanged. -/
theorem sparseSet_getD_ne (l : List (Option String)) (i j : Nat) (v : String)
    (h : j ≠ i) : (sparseSet l i v).getD j Option.none = l.getD j Option.none := by
  unfold sparseSet
  by_cases hi : i < l.length
  · rw [if_pos hi, List.getD_eq_getElem?_getD, List.getElem?_set_ne (Ne.symm h),
      ← List.getD_eq_getElem?_getD]
  · rw [if_neg hi, List.getD_eq_getElem?_getD, List.getD_eq_getElem?_getD]
    by_cases hj : j < l.length
    · rw [List.append_assoc, List.getElem?_append_left hj]
    · rw [List.getElem?_eq_none (show l.length ≤ j by omega), List.append_assoc,
        List.getElem?_append_right (show l.length ≤ j by omega)]
      by_cases hji : j < i
      · rw [List.getElem?_append_left (show j - l.length < (List.replicate (i - l.length)
            (Option.none : Option String)).length by simp; omega),
          List.getElem?_replicate, if_pos (by omega)]
        rfl
      · rw [List.getElem?_append_right (show (List.replicate (i - l.length)
            (Option.none : Option String)).length ≤ j - l.length by simp; omega),
          List.getElem?_eq_none (by simp; omega)]

/-- The context of a sequential run holds, at each index `j < i`, the stdout
captured by command `j` when it completed. -/
theorem seqCtx_getD (env : RunEnv) :
    ∀ (i j : Nat), j < i → ∀ out err, env.exec j = .success out err →
      (seqCtx env i).getD j Option.none = some out := by
  intro i
  induction i with
  | zero =>
    intro j hj
    omega
  | succ k ih =>
    intro j hj out err hx
    by_cases hjk : j = k
    · subst hjk
      rw [seqCtx, hx]
      show (sparseSet (seqCtx env j) j out).getD j Option.none = some out
      exact sparseSet_getD_self _ _ _
    · have hj2 : j < k := by omega
      rw [seqCtx]
      rcases hxk : env.exec k with ⟨o2, e2⟩ | msg
      · show (sparseSet (seqCtx env k) k o2).getD j Option.none = some out
        rw [sparseSet_getD_ne _ _ _ _ hjk]
        exact ih j hj2 out err hx
      · show (seqCtx env k).getD j Option.none = some out
        exact ih j hj2 out err hx

/-- The sequential loop only appends events. -/
theorem seqLoop_events_mono (env : RunEnv) (sv : String → Option String) (total : Nat) :
    ∀ (cmds : List CommandSpec) (i : Nat) (st : List (Option String)) (evs : List Ev),
      ∃ tail, (seqLoop env sv total cmds i st evs).2.1 = evs ++ tail := by
  intro cmds
  induction cmds with
  | nil =>
    intro i st evs
    exact ⟨[], by simp [seqLoop]⟩
  | cons c rest ih =>
    intro i st evs
    rcases hres : detokenizeTpl env.toDetokEnv defaultCfg (cmdNs i) c.command sv st
      with e | filled
    · exact ⟨[Ev.stage (stageMsg i total)], by simp [seqLoop, hres]⟩
    · by_cases hf : filled = ""
      · exact ⟨[Ev.stage (stageMsg i total)], by simp [seqLoop, hres, hf]⟩
      · rcases hx : env.exec i with ⟨out, err⟩ | msg
        · by_cases herr : err = ""
          · obtain ⟨tail, ht⟩ := ih (i + 1) (sparseSet st i out)
              (evs ++ [Ev.stage (stageMsg i total)] ++
                [Ev.launched i filled (cwdUsedFor env.tmpDir c)])
            refine ⟨[Ev.stage (stageMsg i total),
              Ev.launched i filled (cwdUsedFor env.tmpDir c)] ++ tail, ?_⟩
            simp only [seqLoop, hres]
            rw [if_neg hf]
            simp only [hx]
            rw [if_neg (by simp [herr]), ht]
            simp
          · cases hig : c.ignoreErrors with
            | true =>
              obtain ⟨tail, ht⟩ := ih (i + 1) (sparseSet st i out)
                (evs ++ [Ev.stage (stageMsg i total)] ++
                  [Ev.launched i filled (cwdUsedFor env.tmpDir c)])
              refine ⟨[Ev.stage (stageMsg i total),
                Ev.launched i filled (cwdUsedFor env.tmpDir c)] ++ tail, ?_⟩
              simp only [seqLoop, hres]
              rw [if_neg hf]
              simp only [hx]
              rw [if_neg (by simp [hig]), ht]
              simp
            | false =>
              refine ⟨[Ev.stage (stageMsg i total),
                Ev.launched i filled (cwdUsedFor env.tmpDir c)], ?_⟩
              simp only [seqLoop, hres]
              rw [if_neg hf]
              simp only [hx]
              rw [if_pos ⟨herr, by simp [hig]⟩]
              simp
        · cases hig : c.ignoreErrors with
          | true =>
            obtain ⟨tail, ht⟩ := ih (i + 1) st
              (evs ++ [Ev.stage (stageMsg i total)] ++
                [Ev.launched i filled (cwdUsedFor env.tmpDir c)] ++ [Ev.errorOut msg])
            refine ⟨[Ev.stage (stageMsg i total),
              Ev.launched i filled (cwdUsedFor env.tmpDir c), Ev.errorOut msg] ++ tail, ?_⟩
            simp only [seqLoop, hres]
            rw [if_neg hf]
            simp only [hx]
            rw [if_neg (by simp [hig]), ht]
            simp
          | false =>
            refine ⟨[Ev.stage (stageMsg i total),
              Ev.launched i filled (cwdUsedFor env.tmpDir c), Ev.errorOut msg], ?_⟩
            simp only [seqLoop, hres]
            rw [if_neg hf]
            simp only [hx]
            rw [if_pos (by simp [hig])]
            simp

/-- In a sequential run in which every command before `i` resolved, launched
and settled without tripping the stop rule, command `i` — resolving to a
non-empty string against the context of the settled prefix — is launched
with exactly that resolved text. -/
theorem seqLoop_reaches (env : RunEnv) (sv : String → Option String)
    (cmds : List CommandSpec) (total : Nat) (i : Nat) (c : CommandSpec) (f : String)
    (hc : cmds.get? i = some c)
    (hres : detokenizeTpl env.toDetokEnv defaultCfg (cmdNs i) c.command sv (seqCtx env i) =
      .ok f)
    (hf : f ≠ "") :
    ∀ (d k : Nat) (evs : List Ev), i = k + d →
      (∀ j, k ≤ j → j < i → stepOk env sv cmds j) →
      Ev.launched i f (cwdUsedFor env.tmpDir c) ∈
        (seqLoop env sv total (cmds.drop k) k (seqCtx env k) evs).2.1 := by
  have hlen : i < cmds.length := by
    rw [List.get?_eq_getElem?] at hc
    exact (List.getElem?_eq_some_iff.mp hc).1
  have hci : cmds[i] = c := by
    rw [List.get?_eq_getElem?] at hc
    exact (List.getElem?_eq_some_iff.mp hc).2
  intro d
  induction d with
  | zero =>
    intro k evs hik hall
    have hk : k = i := by omega
    subst hk
    rw [List.drop_eq_getElem_cons hlen, hci]
    rcases hx : env.exec k with ⟨out, err⟩ | msg
    · simp only [seqLoop, hres]
      rw [if_neg hf]
      simp only [hx]
      by_cases hbr : err ≠ "" ∧ ¬c.ignoreErrors
      · rw [if_pos hbr]
        simp
      · rw [if_neg hbr]
        obtain ⟨tail, ht⟩ := seqLoop_events_mono env sv total (cmds.drop (k + 1)) (k + 1)
          (sparseSet (seqCtx env k) k out)
          (evs ++ [Ev.stage (stageMsg k total)] ++
            [Ev.launched k f (cwdUsedFor env.tmpDir c)])
        rw [ht]
        simp
    · simp only [seqLoop, hres]
      rw [if_neg hf]
      simp only [hx]
      by_cases hig : ¬c.ignoreErrors
      · rw [if_pos hig]
        simp
      · rw [if_neg hig]
        obtain ⟨tail, ht⟩ := seqLoop_events_mono env sv total (cmds.drop (k + 1)) (k + 1)
          (seqCtx env k)
          (evs ++ [Ev.stage (stageMsg k total)] ++
            [Ev.launched k f (cwdUsedFor env.tmpDir c)] ++ [Ev.errorOut msg])
        rw [ht]
        simp
  | succ d ihd =>
    intro k evs hik hall
    have hki : k < i := by omega
    obtain ⟨ck, hck, ⟨fk, hfk, hfkne⟩, out, err, hxk, hbr⟩ := hall k (Nat.le_refl k) hki
    have hklen : k < cmds.length := by omega
    have hcki : cmds[k] = ck := by
      rw [List.get?_eq_getElem?] at hck
      exact (List.getElem?_eq_some_iff.mp hck).2
    have hctx : seqCtx env (k + 1) = sparseSet (seqCtx env k) k out := by
      rw [seqCtx, hxk]
    rw [List.drop_eq_getElem_cons hklen, hcki]
    simp only [seqLoop, hfk]
    rw [if_neg hfkne]
    simp only [hxk]
    rcases hbr with herr | hig
    · rw [if_neg (by simp [herr]), ← hctx]
      exact ihd (k + 1) _ (by omega) (fun j hj1 hj2 => hall j (by omega) hj2)
    · rw [if_neg (by simp [hig]), ← hctx]
      exact ihd (k + 1) _ (by omega) (fun j hj1 hj2 => hall j (by omega) hj2)

/-- Every launch event added by the parallel dispatch loop carries a command
resolved against the dispatch-time context `st`. -/
theorem parDispatch_launched (env : RunEnv) (sv : String → Option String)
    (st : List (Option String)) :
    ∀ (cmds : List CommandSpec) (k : Nat) (evs : List Ev) (j : Nat) (cmd cw : String),
      Ev.launched j cmd cw ∈ (parDispatch env sv st cmds k evs).2.1 →
      Ev.launched j cmd cw ∈ evs ∨
      ∃ c, cmds.get? (j - k) = some c ∧ k ≤ j ∧
        detokenizeTpl env.toDetokEnv defaultCfg (cmdNs j) c.command sv st = .ok cmd := by
  intro cmds
  induction cmds with
  | nil =>
    intro k evs j cmd cw h
    exact Or.inl (by simpa [parDispatch] using h)
  | cons c rest ih =>
    intro k evs j cmd cw h
    rcases hres : detokenizeTpl env.toDetokEnv defaultCfg (cmdNs k) c.command sv st
      with e | filled
    · simp only [parDispatch, hres] at h
      exact Or.inl h
    · simp only [parDispatch, hres] at h
      by_cases hf : filled = ""
      · rw [if_pos hf] at h
        exact Or.inl h
      · rw [if_neg hf] at h
        rcases ih (k + 1) _ j cmd cw h with h2 | ⟨c2, hc2, hk2, hres2⟩
        · rcases List.mem_append.mp h2 with h3 | h3
          · exact Or.inl h3
          · simp only [List.mem_singleton] at h3
            injection h3 with hj hcmd hcw
            subst hj
            subst hcmd
            refine Or.inr ⟨c, ?_, Nat.le_refl _, hres⟩
            simp
        · refine Or.inr ⟨c2, ?_, by omega, hres2⟩
          have hix : j - k = (j - (k + 1)) + 1 := by omega
          rw [hix]
          simpa using hc2
/-- The parallel join barrier adds no launch events. -/
theorem parSettle_launched (env : RunEnv) :
    ∀ (idxs : List Nat) (st : List (Option String)) (evs : List Ev) (j : Nat)
      (cmd cw : String),
      Ev.launched j cmd cw ∈ (parSettle env idxs st evs).2 →
      Ev.launched j cmd cw ∈ evs := by
  intro idxs
  induction idxs with
  | nil =>
    intro st evs j cmd cw h
    simpa [parSettle] using h
  | cons i rest ih =>
    intro st evs j cmd cw h
    rcases hx : env.exec i with ⟨out, err⟩ | msg
    · simp only [parSettle, hx] at h
      exact ih _ _ _ _ _ h
    · simp only [parSettle, hx] at h
      have h2 := ih _ _ _ _ _ h
      rcases List.mem_append.mp h2 with h3 | h3
      · exact h3
      · simp only [List.mem_singleton] at h3
        exact absurd h3 (by simp)

/-- The output phase adds no launch events. -/
theorem emitLoop_launched (env : RunEnv) (sv : String → Option String)
    (stdouts : List (Option String)) (mode : OutputMode) :
    ∀ (outs : List OutputSpec) (k : Nat) (evs : List Ev) (j : Nat) (cmd cw : String),
      Ev.launched j cmd cw ∈ (emitLoop env sv stdouts mode outs k evs).1 →
      Ev.launched j cmd cw ∈ evs := by
  intro outs
  induction outs with
  | nil =>
    intro k evs j cmd cw h
    simpa [emitLoop] using h
  | cons o rest ih =>
    intro k evs j cmd cw h
    rcases hres : detokenizeTpl env.toDetokEnv defaultCfg ("result[" ++ toString k ++ "]")
        o.template sv stdouts with e | filled
    · simp only [emitLoop, hres] at h
      exact h
    · simp only [emitLoop, hres] at h
      by_cases hf : filled = ""
      · rw [if_neg (fun hh => hh hf)] at h
        have h2 := ih (k + 1) _ _ _ _ h
        by_cases hm : mode = OutputMode.all
        · rw [if_pos hm] at h2
          rcases List.mem_append.mp h2 with h3 | h3
          · exact h3
          · simp only [List.mem_singleton] at h3
            exact absurd h3 (by simp)
        · rw [if_neg hm] at h2
          exact h2
      · rw [if_pos hf] at h
        by_cases hm : mode = OutputMode.first
        · rw [if_pos hm] at h
          rcases List.mem_append.mp h with h3 | h3
          · exact h3
          · simp only [List.mem_singleton] at h3
            exact absurd h3 (by simp)
        · rw [if_neg hm] at h
          have h2 := ih (k + 1) _ _ _ _ h
          rcases List.mem_append.mp h2 with h3 | h3
          · exact h3
          · simp only [List.mem_singleton] at h3
            exact absurd h3 (by simp)

/-- C4: the context a command's template is resolved against contains
exactly the captured outputs of the commands that settled before it. In
parallel mode every launched command was resolved against the empty
dispatch-time context, so no command observes a sibling's output; in
sequential mode, when every earlier command resolved, launched and settled
without stopping the chain, command `i` is launched with its template
resolved against the context holding the captured stdout of every completed
command `j < i` at index `j`. -/
theorem claim_C4 (env : RunEnv) (sv : String → Option String) (opts : Options) :
    (opts.parallelMode = true →
      ∀ j cmd cw, Ev.launched j cmd cw ∈ (processorRun env sv opts).events →
        ∃ c, opts.commands.get? j = some c ∧
          detokenizeTpl env.toDetokEnv defaultCfg (cmdNs j) c.command sv [] = .ok cmd) ∧
    (opts.parallelMode = false →
      ∀ (i : Nat) (c : CommandSpec) (f : String),
        opts.commands.get? i = some c →
        (∀ j, j < i → stepOk env sv opts.commands j) →
        detokenizeTpl env.toDetokEnv defaultCfg (cmdNs i) c.command sv (seqCtx env i) =
          .ok f →
        f ≠ "" →
        Ev.launched i f (cwdUsedFor env.tmpDir c) ∈ (processorRun env sv opts).events ∧
        ∀ j, j < i → ∀ out err, env.exec j = .success out err →
          (seqCtx env i).getD j Option.none = some out) := by
  constructor
  · intro hpar j cmd cw hmem
    rcases hd : parDispatch env sv [] opts.commands 0 [Ev.tmpDirCreated]
      with ⟨li, evs2, fat⟩
    have hev2 : Ev.launched j cmd cw ∈ evs2 → ∃ c, opts.commands.get? j = some c ∧
        detokenizeTpl env.toDetokEnv defaultCfg (cmdNs j) c.command sv [] = .ok cmd := by
      intro hin
      have := parDispatch_launched env sv [] opts.commands 0 [Ev.tmpDirCreated] j cmd cw
        (by rw [hd]; exact hin)
      rcases this with h3 | ⟨c2, hc2, _, hres2⟩
      · simp at h3
      · exact ⟨c2, by simpa using hc2, hres2⟩
    cases fat with
    | some fmsg =>
      have hrun : processorRun env sv opts = ⟨evs2, some fmsg⟩ := by
        simp [processorRun, hpar, hd]
      rw [hrun] at hmem
      exact hev2 hmem
    | none =>
      have hrun : processorRun env sv opts =
          ⟨(emitLoop env sv (parSettle env li [] evs2).1 opts.outputMode opts.outputs 0
            ((parSettle env li [] evs2).2 ++ [Ev.tmpDirDeleted])).1,
           (emitLoop env sv (parSettle env li [] evs2).1 opts.outputMode opts.outputs 0
            ((parSettle env li [] evs2).2 ++ [Ev.tmpDirDeleted])).2⟩ := by
        simp [processorRun, hpar, hd]
      rw [hrun] at hmem
      have h4 := emitLoop_launched env sv _ _ _ _ _ _ _ _ hmem
      rcases List.mem_append.mp h4 with h5 | h5
      · exact hev2 (parSettle_launched env li [] evs2 j cmd cw h5)
      · simp only [List.mem_singleton] at h5
        exact absurd h5 (by simp)
  · intro hseq i c f hc hall hres hf
    have hreach := seqLoop_reaches env sv opts.commands opts.commands.length i c f hc hres hf
      i 0 [Ev.tmpDirCreated] (by omega) (fun j hj1 hj2 => hall j hj2)
    rw [List.drop_zero] at hreach
    have hreach2 : Ev.launched i f (cwdUsedFor env.tmpDir c) ∈
        (seqLoop env sv opts.commands.length opts.commands 0 [] [Ev.tmpDirCreated]).2.1 :=
      hreach
    constructor
    · rcases hs : seqLoop env sv opts.commands.length opts.commands 0 [] [Ev.tmpDirCreated]
        with ⟨st2, evs2, fat⟩
      rw [hs] at hreach2
      cases fat with
      | some fmsg =>
        have hrun : processorRun env sv opts = ⟨evs2, some fmsg⟩ := by
          simp [processorRun, hseq, hs]
        rw [hrun]
        exact hreach2
      | none =>
        have hrun : processorRun env sv opts =
            ⟨(emitLoop env sv st2 opts.outputMode opts.outputs 0
              (evs2 ++ [Ev.tmpDirDeleted])).1,
             (emitLoop env sv st2 opts.outputMode opts.outputs 0
              (evs2 ++ [Ev.tmpDirDeleted])).2⟩ := by
          simp [processorRun, hseq, hs]
        rw [hrun]
        obtain ⟨tail, ht⟩ := emitLoop_events_mono env sv st2 opts.outputMode opts.outputs 0
          (evs2 ++ [Ev.tmpDirDeleted])
        show Ev.launched i f (cwdUsedFor env.tmpDir c) ∈
          (emitLoop env sv st2 opts.outputMode opts.outputs 0 (evs2 ++ [Ev.tmpDirDeleted])).1
        rw [ht]
        simp only [List.mem_append]
        exact Or.inl (Or.inl hreach2)
    · intro j hj out err hx
      exact seqCtx_getD env i j hj out err hx

/-- C4 witness: in a concrete parallel run the launched command was resolved
against the empty context, and in a concrete sequential run command 1 is
launched with command 0's captured stdout substituted. -/
theorem claim_C4_witness :
    (∃ c, ([⟨"<payload>", "", false⟩] : List CommandSpec).get? 0 = some c ∧
      detokenizeTpl runEnvA.toDetokEnv defaultCfg (cmdNs 0) c.command paySv [] = .ok "P") ∧
    (Ev.launched 1 "OUT0" (cwdUsedFor runEnvA.tmpDir ⟨"<stdout[0]>", "", false⟩) ∈
      (processorRun runEnvA paySv
        { parallelMode := false,
          commands := [⟨"a", "", false⟩, ⟨"<stdout[0]>", "", false⟩],
          outputs := [], outputMode := OutputMode.all }).events ∧
     ∀ j, j < 1 → ∀ out err, runEnvA.exec j = .success out err →
       (seqCtx runEnvA 1).getD j Option.none = some out) := by
  constructor
  · exact (claim_C4 runEnvA paySv
      { parallelMode := true, commands := [⟨"<payload>", "", false⟩],
        outputs := [], outputMode := OutputMode.all }).1 rfl 0 "P" "/tmp/op" (by decide)
  · exact (claim_C4 runEnvA paySv
      { parallelMode := false,
        commands := [⟨"a", "", false⟩, ⟨"<stdout[0]>", "", false⟩],
        outputs := [], outputMode := OutputMode.all }).2 rfl 1
      ⟨"<stdout[0]>", "", false⟩ "OUT0" rfl
      (fun j hj => by
        have hj0 : j = 0 := by omega
        subst hj0
        exact ⟨⟨"a", "", false⟩, rfl, ⟨"a", rfl, by decide⟩, "OUT0", "", rfl, Or.inl rfl⟩)
      rfl (by decide)
end DrovpRun
